import Mathlib

/-!
Verification of the layout and pagination engine of the ancient-books
composing program (src/ancient_books.py) against its specification.

The Python source is shallowly embedded: strings become lists of
characters, Python ints become Int (with floor division Int.fdiv and
floor modulus Int.fmod, matching Python // and %), the mutable
remain_height state of split_paragraph becomes an explicit state record
threaded through a fold, and the pixel coordinates of the drawing loop
become exact rationals.  External collaborators (PIL font metrics,
canvas drawing) are abstracted as function parameters: a font is a
metrics oracle from size to a character bounding box, and glyph
availability is a boolean oracle per character.
-/

namespace AncientBooks

/-- Text type tags for runs (class TextType in the source, src lines 20-26).
The annotation constructor is named anno here. -/
inductive TextType where
  | chapter
  | content
  | anno
deriving DecidableEq, Repr

/-- A run: one typed span of text inside a line
(the dicts dict(type=..., value=...) built in split_paragraph / split_text). -/
structure Run where
  type : TextType
  value : List Char
deriving DecidableEq, Repr

/-- One vertical column (the dicts dict(chapter=..., line=[...]) of the source). -/
structure LineRec where
  chapter : List Char
  line : List Run
deriving DecidableEq, Repr

/-- Resolve a Python slice endpoint k against a list of length n:
a negative index counts from the end and clamps at 0 (Nat subtraction),
as Python slicing does. -/
def pyIdx (k : Int) (n : Nat) : Nat :=
  if k < 0 then n - (-k).toNat else k.toNat

/-- Python slice text[0:k] (also for negative k). -/
def pyTake (k : Int) (s : List Char) : List Char :=
  s.take (pyIdx k s.length)

/-- Python slice text[k:] (also for negative k). -/
def pyDrop (k : Int) (s : List Char) : List Char :=
  s.drop (pyIdx k s.length)

theorem pyTake_append_pyDrop (k : Int) (s : List Char) :
    pyTake k s ++ pyDrop k s = s := by
  simp [pyTake, pyDrop]

/-- Structural worker for cut, with the list length as fuel so that the
recursion on repeated drops is primitive (and hence evaluates inside the
kernel); cut below always supplies enough fuel. -/
def cutAux : Nat → List α → Nat → List (List α)
  | 0, _, _ => []
  | _ + 1, [], _ => []
  | _ + 1, _ :: _, 0 => []
  | fuel + 1, x :: xs, length + 1 =>
      (x :: xs).take (length + 1) :: cutAux fuel ((x :: xs).drop (length + 1)) (length + 1)

/-- cut(text, length): split a sequence into consecutive chunks of the given
size (src lines 80-89).  A falsy (empty) input gives [].  For length = 0 the
source raises ValueError (zero step in range); the model returns [] there and
every theorem touching cut assumes a positive length. -/
def cut (text : List α) (length : Nat) : List (List α) :=
  cutAux text.length text length

theorem cutAux_congr :
    ∀ f1 f2 (text : List α) (length : Nat), text.length ≤ f1 → text.length ≤ f2 →
      cutAux f1 text length = cutAux f2 text length := by
  intro f1
  induction f1 with
  | zero =>
    intro f2 text length h1 _
    have : text = [] := List.eq_nil_of_length_eq_zero (Nat.le_zero.mp h1)
    subst this
    cases f2 <;> rfl
  | succ f ih =>
    intro f2 text length h1 h2
    cases text with
    | nil => cases f2 <;> rfl
    | cons x xs =>
      cases f2 with
      | zero => simp at h2
      | succ f2' =>
        cases length with
        | zero => rfl
        | succ l =>
          show _ :: cutAux f _ _ = _ :: cutAux f2' _ _
          congr 1
          apply ih
          · simp only [List.drop_succ_cons, List.length_drop]
            simp only [List.length_cons] at h1
            omega
          · simp only [List.drop_succ_cons, List.length_drop]
            simp only [List.length_cons] at h2
            omega

theorem cut_nil (length : Nat) : cut ([] : List α) length = [] := rfl

theorem cut_zero : ∀ text : List α, cut text 0 = []
  | [] => rfl
  | _ :: _ => rfl

theorem cut_pos (text : List α) (length : Nat) (ht : text ≠ []) (hl : length ≠ 0) :
    cut text length = text.take length :: cut (text.drop length) length := by
  match text, length with
  | [], _ => exact absurd rfl ht
  | _ :: _, 0 => exact absurd rfl hl
  | x :: xs, l + 1 =>
    show (x :: xs).take (l + 1) :: cutAux xs.length ((x :: xs).drop (l + 1)) (l + 1) = _
    congr 1
    apply cutAux_congr
    · simp only [List.drop_succ_cons, List.length_drop]
      omega
    · exact le_rfl

theorem cut_join_aux (length : Nat) (hl : 0 < length) :
    ∀ n, ∀ text : List α, text.length ≤ n → (cut text length).flatten = text := by
  intro n
  induction n with
  | zero =>
    intro text h
    have : text = [] := List.eq_nil_of_length_eq_zero (Nat.le_zero.mp h)
    subst this
    simp [cut_nil]
  | succ n ih =>
    intro text h
    by_cases ht : text = []
    · subst ht; simp [cut_nil]
    · rw [cut_pos text length ht (Nat.pos_iff_ne_zero.mp hl)]
      have hpos : 0 < text.length := List.length_pos.mpr ht
      have hrec : (text.drop length).length ≤ n := by
        simp only [List.length_drop]
        omega
      rw [List.flatten_cons, ih (text.drop length) hrec]
      exact List.take_append_drop length text

/-- Concatenating the chunks of cut reproduces the input. -/
theorem cut_join (length : Nat) (hl : 0 < length) (text : List α) :
    (cut text length).flatten = text :=
  cut_join_aux length hl text.length text le_rfl

theorem cut_chunk_length_aux (length : Nat) (hl : 0 < length) :
    ∀ n, ∀ text : List α, text.length ≤ n →
      ∀ c ∈ cut text length, c ≠ [] ∧ c.length ≤ length := by
  intro n
  induction n with
  | zero =>
    intro text h
    have : text = [] := List.eq_nil_of_length_eq_zero (Nat.le_zero.mp h)
    subst this
    simp [cut_nil]
  | succ n ih =>
    intro text h
    by_cases ht : text = []
    · subst ht; simp [cut_nil]
    · rw [cut_pos text length ht (Nat.pos_iff_ne_zero.mp hl)]
      intro c hc
      have hpos : 0 < text.length := List.length_pos.mpr ht
      rcases List.mem_cons.mp hc with hcc | hcc
      · subst hcc
        refine ⟨?_, by simp [List.length_take]⟩
        intro habs
        have := congrArg List.length habs
        simp only [List.length_take, List.length_nil] at this
        omega
      · have hrec : (text.drop length).length ≤ n := by
          simp only [List.length_drop]
          omega
        exact ih (text.drop length) hrec c hcc

/-- Every chunk of cut is nonempty and no longer than the requested length. -/
theorem cut_chunk_length (length : Nat) (hl : 0 < length) (text : List α) :
    ∀ c ∈ cut text length, c ≠ [] ∧ c.length ≤ length :=
  cut_chunk_length_aux length hl text.length text le_rfl

theorem cut_full_chunks_aux (length : Nat) (hl : 0 < length) :
    ∀ n, ∀ text : List α, text.length ≤ n →
      ∀ i, i + 1 < (cut text length).length →
        ((cut text length).getD i []).length = length := by
  intro n
  induction n with
  | zero =>
    intro text h
    have : text = [] := List.eq_nil_of_length_eq_zero (Nat.le_zero.mp h)
    subst this
    simp [cut_nil]
  | succ n ih =>
    intro text h
    by_cases ht : text = []
    · subst ht; simp [cut_nil]
    · rw [cut_pos text length ht (Nat.pos_iff_ne_zero.mp hl)]
      intro i hi
      have hpos : 0 < text.length := List.length_pos.mpr ht
      have hrec : (text.drop length).length ≤ n := by
        simp only [List.length_drop]
        omega
      cases i with
      | zero =>
        simp only [List.length_cons] at hi
        have hrest : cut (text.drop length) length ≠ [] := by
          intro habs
          rw [habs] at hi
          simp at hi
        have hdrop : text.drop length ≠ [] := by
          intro habs
          rw [habs, cut_nil] at hrest
          exact hrest rfl
        have hlt : length < text.length := by
          by_contra hle
          push_neg at hle
          exact hdrop (List.drop_eq_nil_of_le hle)
        simp only [List.getD_cons_zero, List.length_take]
        omega
      | succ j =>
        simp only [List.length_cons, Nat.succ_lt_succ_iff] at hi
        simp only [List.getD_cons_succ]
        exact ih (text.drop length) hrec j hi

/-- All chunks except possibly the last have exactly the requested length. -/
theorem cut_full_chunks (length : Nat) (hl : 0 < length) (text : List α)
    (i : Nat) (hi : i + 1 < (cut text length).length) :
    ((cut text length).getD i []).length = length :=
  cut_full_chunks_aux length hl text.length text le_rfl i hi

/-- Claim C10: for every string and every positive chunk length n, cut returns
chunks that concatenate back to the input, all of exact length n except
possibly the last, each nonempty and at most n long; and cut of an empty
(or absent, modelled as empty) string is the empty list. -/
theorem cut_spec_all (text : List Char) (n : Nat) (hn : 0 < n) :
    (cut text n).flatten = text ∧
    (∀ i, i + 1 < (cut text n).length → ((cut text n).getD i []).length = n) ∧
    (∀ c ∈ cut text n, c ≠ [] ∧ c.length ≤ n) ∧
    cut ([] : List Char) n = [] :=
  ⟨cut_join n hn text, fun i hi => cut_full_chunks n hn text i hi,
    cut_chunk_length n hn text, cut_nil n⟩

/-- Witness for cut_spec_all on the string abcde with chunk length 2. -/
theorem cut_spec_all_witness :
    0 < 2 ∧
    ((cut ['a', 'b', 'c', 'd', 'e'] 2).flatten = ['a', 'b', 'c', 'd', 'e'] ∧
      (∀ i, i + 1 < (cut ['a', 'b', 'c', 'd', 'e'] 2).length →
        ((cut ['a', 'b', 'c', 'd', 'e'] 2).getD i []).length = 2) ∧
      (∀ c ∈ cut ['a', 'b', 'c', 'd', 'e'] 2, c ≠ [] ∧ c.length ≤ 2) ∧
      cut ([] : List Char) 2 = []) :=
  ⟨by decide, cut_spec_all ['a', 'b', 'c', 'd', 'e'] 2 (by decide)⟩

theorem cut_chunks_dvd (L B : Nat) (hB : L ∣ B) :
    ∀ n, ∀ lines : List α, lines.length ≤ n → L ∣ lines.length →
      ∀ c ∈ cut lines B, L ∣ c.length := by
  intro n
  induction n with
  | zero =>
    intro lines h hdvd c hc
    have : lines = [] := List.eq_nil_of_length_eq_zero (Nat.le_zero.mp h)
    subst this
    rw [cut_nil] at hc
    exact absurd hc (List.not_mem_nil c)
  | succ n ih =>
    intro lines h hdvd c hc
    by_cases ht : lines = []
    · subst ht
      rw [cut_nil] at hc
      exact absurd hc (List.not_mem_nil c)
    · by_cases hB0 : B = 0
      · rw [hB0, cut_zero] at hc
        exact absurd hc (List.not_mem_nil c)
      · rw [cut_pos lines B ht hB0] at hc
        have hpos : 0 < lines.length := List.length_pos.mpr ht
        rcases List.mem_cons.mp hc with hcc | hcc
        · subst hcc
          rw [List.length_take]
          rcases Nat.le_total B lines.length with hle | hle
          · rw [min_eq_left hle]
            exact hB
          · rw [min_eq_right hle]
            exact hdvd
        · have hrec : (lines.drop B).length ≤ n := by
            simp only [List.length_drop]
            omega
          have hdvd2 : L ∣ (lines.drop B).length := by
            rw [List.length_drop]
            exact Nat.dvd_sub' hdvd hB
          exact ih (lines.drop B) hrec hdvd2 c hcc

/-!
## Font size resolution (calculate_font_size, src lines 389-421)

A PIL font is abstracted as a metrics oracle sending a size to the
bounding box (char_width, char_height) that font.getbbox reports for
the probe character at that size.
-/

/-- One column of the downward size search of calculate_font_size:
try sizes initial, initial-1, ..., 1 and stop at the first size whose
required total width fits; when the loop runs out (even size 1 is too
wide) the source falls through with size = 1 and the metrics measured
at size 1 (the for-loop leaves its last iteration values behind).  For
initial size 0 the Python range is empty and the initial values
(font_size, 0, 0) are returned. -/
def fontSizeLoop (fit : Nat → Bool) (metrics : Nat → Nat × Nat) : Nat → Nat × Nat × Nat
  | 0 => (0, 0, 0)
  | s + 1 =>
    let m := metrics (s + 1)
    if fit (s + 1) || s == 0 then (s + 1, m.1, m.2)
    else fontSizeLoop fit metrics s

/-- Width-fit test of calculate_font_size: the negation of the
continue condition of the source loop. -/
def fitsWidth (metrics : Nat → Nat × Nat) (textBoxWidth lineCount lineSpace : Int)
    (isAnno : Bool) (annotationLineSpace : Int) (s : Nat) : Bool :=
  let cw : Int := ((metrics s).1 : Int)
  if isAnno then
    decide (lineCount * (2 * cw + annotationLineSpace + lineSpace) - lineSpace ≤ textBoxWidth)
  else
    decide (lineCount * (cw + lineSpace) - lineSpace ≤ textBoxWidth)

/-- calculate_font_size (src lines 389-421): find the largest size not above
the initial one whose required width fits, together with the character box at
the returned size.  Returns (size, char_width, char_height). -/
def calculateFontSize (metrics : Nat → Nat × Nat) (fontSize : Nat)
    (textBoxWidth lineCount lineSpace : Int) (isAnno : Bool)
    (annotationLineSpace : Int) : Nat × Nat × Nat :=
  fontSizeLoop (fitsWidth metrics textBoxWidth lineCount lineSpace isAnno annotationLineSpace)
    metrics fontSize

theorem fontSizeLoop_le (fit : Nat → Bool) (metrics : Nat → Nat × Nat) :
    ∀ n, (fontSizeLoop fit metrics n).1 ≤ n := by
  intro n
  induction n with
  | zero => simp [fontSizeLoop]
  | succ s ih =>
    rw [fontSizeLoop]
    by_cases h : (fit (s + 1) || s == 0) = true
    · simp only [h, if_true]
      exact le_rfl
    · simp only [h, if_false]
      exact Nat.le_succ_of_le ih

theorem fontSizeLoop_mono (fit : Nat → Bool) (metrics : Nat → Nat × Nat) (n : Nat) :
    (fontSizeLoop fit metrics n).1 ≤ (fontSizeLoop fit metrics (n + 1)).1 := by
  conv_rhs => rw [fontSizeLoop]
  by_cases h : (fit (n + 1) || n == 0) = true
  · simp only [h, if_true]
    exact Nat.le_succ_of_le (fontSizeLoop_le fit metrics n)
  · simp [h]

/-- Claim C5: font size resolution is monotone in the initial size: with all
other parameters fixed, the size calculate_font_size returns for initial size
N is at most the size it returns for initial size N + 1 (for every font
metrics function, box width, column count and gaps). -/
theorem calculate_font_size_monotone (metrics : Nat → Nat × Nat)
    (textBoxWidth lineCount lineSpace : Int) (isAnno : Bool)
    (annotationLineSpace : Int) (n : Nat) :
    (calculateFontSize metrics n textBoxWidth lineCount lineSpace isAnno
      annotationLineSpace).1 ≤
    (calculateFontSize metrics (n + 1) textBoxWidth lineCount lineSpace isAnno
      annotationLineSpace).1 :=
  fontSizeLoop_mono _ metrics n

/-- Claim C2 (code bug witness): at a configuration where even size 1 cannot
fit the requested columns (constant character width 200, box width 1000,
21 columns of the tongzi layout, gap 5), calculate_font_size does not fail:
it silently returns size 1, and at that size the required total width
21 * (200 + 5) - 5 = 4300 still exceeds the 1000 pixel box.  The spec
mandates a LayoutInfeasible failure here instead. -/
theorem calculate_font_size_returns_unfit_size :
    (calculateFontSize (fun _ => (200, 210)) 10 1000 21 5 false 0).1 = 1 ∧
    (21 : Int) *
        (((calculateFontSize (fun _ => (200, 210)) 10 1000 21 5 false 0).2.1 : Int) + 5)
        - 5 > 1000 := by
  decide

/-!
## Inner margin (adjust_font, src lines 174-178)
-/

/-- The inner margin computation of adjust_font: the leftover slack
useless_height = text_box_height % (content_char_height + content_char_space)
is split between a top and a bottom inner margin.  Python % and // are
modelled by Int.fmod and Int.fdiv. -/
def innerMarginOf (textBoxHeight contentCellTotal : Int) : Int × Int :=
  let uselessHeight := textBoxHeight.fmod contentCellTotal
  if uselessHeight.fmod 2 = 0 then
    (uselessHeight.fdiv 2, uselessHeight.fdiv 2)
  else
    (uselessHeight.fdiv 2, uselessHeight - uselessHeight.fdiv 2)

/-- Claim C9: for every text box height and positive content character cell,
the inner margin splits the slack (text box height modulo the cell) into a top
and a bottom part that sum to the slack, differ by at most one, and when the
slack is odd the larger part is the bottom one. -/
theorem inner_margin_split (textBoxHeight contentCellTotal : Int)
    (hc : 0 < contentCellTotal) :
    (innerMarginOf textBoxHeight contentCellTotal).1 +
        (innerMarginOf textBoxHeight contentCellTotal).2 =
      textBoxHeight.fmod contentCellTotal ∧
    ((innerMarginOf textBoxHeight contentCellTotal).2 -
        (innerMarginOf textBoxHeight contentCellTotal).1 = 0 ∨
      (innerMarginOf textBoxHeight contentCellTotal).2 -
        (innerMarginOf textBoxHeight contentCellTotal).1 = 1) ∧
    ((textBoxHeight.fmod contentCellTotal).fmod 2 = 1 →
      (innerMarginOf textBoxHeight contentCellTotal).2 =
        (innerMarginOf textBoxHeight contentCellTotal).1 + 1) := by
  have hmod : textBoxHeight.fmod contentCellTotal =
      textBoxHeight % contentCellTotal := Int.fmod_eq_emod _ (le_of_lt hc)
  have hfd : (textBoxHeight.fmod contentCellTotal).fmod 2 =
      (textBoxHeight.fmod contentCellTotal) % 2 := Int.fmod_eq_emod _ (by norm_num)
  have hdiv : (textBoxHeight.fmod contentCellTotal).fdiv 2 =
      (textBoxHeight.fmod contentCellTotal) / 2 := Int.fdiv_eq_ediv _ (by norm_num)
  have hdm : 2 * ((textBoxHeight.fmod contentCellTotal) / 2) +
      (textBoxHeight.fmod contentCellTotal) % 2 =
      textBoxHeight.fmod contentCellTotal := Int.ediv_add_emod _ 2
  by_cases hif : (textBoxHeight.fmod contentCellTotal).fmod 2 = 0
  · have h0 : (textBoxHeight.fmod contentCellTotal) % 2 = 0 := by rw [← hfd]; exact hif
    simp only [innerMarginOf, hif, if_true]
    rw [hdiv]
    refine ⟨by omega, Or.inl (by omega), ?_⟩
    intro habs
    exact absurd habs (by norm_num)
  · have h1 : (textBoxHeight.fmod contentCellTotal) % 2 = 1 := by
      rcases Int.emod_two_eq_zero_or_one (textBoxHeight.fmod contentCellTotal) with h | h
      · exact absurd (by rw [hfd, h]) hif
      · exact h
    simp only [innerMarginOf, hif, if_false]
    rw [hdiv]
    exact ⟨by omega, Or.inr (by omega), fun _ => by omega⟩

/-- Witness for inner_margin_split at text box height 22 and cell 3
(slack 1, odd: top 0, bottom 1). -/
theorem inner_margin_split_witness :
    (0 : Int) < 3 ∧
    ((innerMarginOf 22 3).1 + (innerMarginOf 22 3).2 = (22 : Int).fmod 3 ∧
      ((innerMarginOf 22 3).2 - (innerMarginOf 22 3).1 = 0 ∨
        (innerMarginOf 22 3).2 - (innerMarginOf 22 3).1 = 1) ∧
      (((22 : Int).fmod 3).fmod 2 = 1 →
        (innerMarginOf 22 3).2 = (innerMarginOf 22 3).1 + 1)) :=
  ⟨by decide, inner_margin_split 22 3 (by decide)⟩

/-!
## Paragraph splitting (split_paragraph, src lines 203-279)

The params dict entries consumed by the layout functions become a record.
Sentences and annotations are lists of characters; a missing (None) or
empty annotation is the empty list, which is exactly what the source's
truthiness tests and cut(None) treat it as.
-/

/-- The layout parameter entries of the params dict used by split_paragraph,
split_text and the drawing loop. -/
structure Params where
  contentCharHeight : Int
  contentCharSpace : Int
  annotationCharHeight : Int
  annotationCharSpace : Int
  chapterCharHeight : Int
  textBoxHeight : Int
  innerMarginTop : Int
  innerMarginBottom : Int
  maxChapterChars : Nat
  maxContentChars : Nat
  maxAnnotationChars : Nat
  lineCount : Nat
  width : Int
  marginTop : Int
  marginBottom : Int
  marginLeft : Int
  marginRight : Int
  border : Int
  lineSpace : Int
  annotationLineSpace : Int
  annotationCharWidth : Int
deriving DecidableEq, Repr

/-- valid_height = text_box_height - inner_margin[0] - inner_margin[1]
(src line 224). -/
def Params.validHeight (p : Params) : Int :=
  p.textBoxHeight - p.innerMarginTop - p.innerMarginBottom

/-- Vertical pixels of one content character slot
(content_char_height + content_char_space). -/
def Params.contentCell (p : Params) : Int :=
  p.contentCharHeight + p.contentCharSpace

/-- Vertical pixels of one annotation pair slot
(annotation_char_height + annotation_char_space). -/
def Params.annotationCell (p : Params) : Int :=
  p.annotationCharHeight + p.annotationCharSpace

/-- math.ceil(n / 2) on a natural number. -/
def ceilHalf (n : Nat) : Nat := (n + 1) / 2

/-- Append a run to the last line (lines[-1].get('line').append(...)).
On an empty list the source would raise IndexError; that situation is
unreachable (remain_height < valid_height implies at least one line
exists, proven below), and the model leaves the empty list unchanged. -/
def appendRunToLast (lines : List LineRec) (r : Run) : List LineRec :=
  match lines with
  | [] => []
  | [ln] => [⟨ln.chapter, ln.line ++ [r]⟩]
  | ln :: rest => ln :: appendRunToLast rest r

/-- The loop state of split_paragraph: the accumulated lines and the
carried vertical budget remain_height. -/
structure SplitState where
  lines : List LineRec
  remain : Int
deriving DecidableEq, Repr

/-- The content carry block of split_paragraph (src lines 235-247): when the
previous sentence left a partially filled column, the head of the incoming
sentence is appended to the previous line; returns the updated state and the
still unplaced remainder of the sentence. -/
def contentCarry (p : Params) (st : SplitState) (sentence : List Char) :
    SplitState × List Char :=
  if st.remain < p.validHeight then
    let space := st.remain.fdiv p.contentCell
    if space = 0 then (⟨st.lines, p.validHeight⟩, sentence)
    else if space < (sentence.length : Int) then
      (⟨appendRunToLast st.lines ⟨TextType.content, pyTake space sentence⟩,
        p.validHeight⟩, pyDrop space sentence)
    else
      (⟨appendRunToLast st.lines ⟨TextType.content, sentence⟩,
        st.remain - (sentence.length : Int) * p.contentCell⟩, [])
  else (st, sentence)

/-- One step of the content chunking loop of split_paragraph (src lines
248-253): emit a new line holding one chunk; a chunk shorter than
max_content_chars_per_line reduces remain_height, a full chunk resets it. -/
def contentEmit (p : Params) (ch : List Char) (acc : SplitState)
    (part : List Char) : SplitState :=
  ⟨acc.lines ++ [⟨ch, [⟨TextType.content, part⟩]⟩],
    if part.length < p.maxContentChars then
      acc.remain - (part.length : Int) * p.contentCell
    else p.validHeight⟩

/-- Content handling for one sentence of split_paragraph (src lines 235-253):
the carry block followed by the chunking loop. -/
def contentStep (p : Params) (ch : List Char) (st : SplitState)
    (sentence : List Char) : SplitState :=
  (cut (contentCarry p st sentence).2 p.maxContentChars).foldl
    (contentEmit p ch) (contentCarry p st sentence).1

/-- The annotation carry block of split_paragraph (src lines 254-271),
guarded by the truthiness of the annotation: character capacity is doubled
(two sub-columns per vertical slot), and an annotation that fits entirely
reserves an extra pair slot when its pair count is odd. -/
def annotationCarry (p : Params) (st : SplitState) (annot : List Char) :
    SplitState × List Char :=
  if annot ≠ [] ∧ st.remain < p.validHeight then
    let space := st.remain.fdiv p.annotationCell * 2
    if space = 0 then (⟨st.lines, p.validHeight⟩, annot)
    else if space < (annot.length : Int) then
      (⟨appendRunToLast st.lines ⟨TextType.anno, pyTake space annot⟩,
        p.validHeight⟩, pyDrop space annot)
    else
      (⟨appendRunToLast st.lines ⟨TextType.anno, annot⟩,
        st.remain - (ceilHalf annot.length : Int) * p.annotationCell -
          (if ceilHalf annot.length % 2 ≠ 0 then p.annotationCell else 0)⟩, [])
  else (st, annot)

/-- One step of the annotation chunking loop of split_paragraph (src lines
272-278): a chunk of length at least max_annotation_chars_per_line - 1
counts as a full column and resets remain_height. -/
def annotationEmit (p : Params) (ch : List Char) (acc : SplitState)
    (part : List Char) : SplitState :=
  ⟨acc.lines ++ [⟨ch, [⟨TextType.anno, part⟩]⟩],
    if part.length < p.maxAnnotationChars - 1 then
      acc.remain - (ceilHalf part.length : Int) * p.annotationCell
    else p.validHeight⟩

/-- Annotation handling for one sentence of split_paragraph (src lines
254-278): the carry block followed by the chunking loop. -/
def annotationStep (p : Params) (ch : List Char) (st : SplitState)
    (annot : List Char) : SplitState :=
  (cut (annotationCarry p st annot).2 p.maxAnnotationChars).foldl
    (annotationEmit p ch) (annotationCarry p st annot).1

/-- One iteration of the sentence loop of split_paragraph: the sentence is
laid out, then its annotation. -/
def sentenceStep (p : Params) (ch : List Char) (st : SplitState)
    (sentence annot : List Char) : SplitState :=
  annotationStep p ch (contentStep p ch st sentence) annot

/-- The sentence loop of split_paragraph: annotations are consumed in
parallel with sentences; a sentence whose index is beyond the annotation
list gets no annotation (annotation = None in the source). -/
def splitLoop (p : Params) (ch : List Char) :
    SplitState → List (List Char) → List (List Char) → SplitState
  | st, [], _ => st
  | st, s :: ss, [] => splitLoop p ch (sentenceStep p ch st s []) ss []
  | st, s :: ss, a :: annots => splitLoop p ch (sentenceStep p ch st s a) ss annots

/-- split_paragraph including its final internal state: lines produced and
the final remain_height. -/
def splitParagraphState (p : Params) (ch : List Char)
    (sentences annots : List (List Char)) : SplitState :=
  splitLoop p ch ⟨[], p.validHeight⟩ sentences annots

/-- split_paragraph (src lines 203-279): the list of lines produced for one
paragraph. -/
def splitParagraph (p : Params) (ch : List Char)
    (sentences annots : List (List Char)) : List LineRec :=
  (splitParagraphState p ch sentences annots).lines

/-- The CONTENT text of a run (empty for other run types). -/
def runContent (r : Run) : List Char :=
  if r.type = TextType.content then r.value else []

/-- Concatenation of all CONTENT run values of a line list, in line order and
run order. -/
def contentConcat (lines : List LineRec) : List Char :=
  (lines.map fun ln => (ln.line.map runContent).flatten).flatten

/-- The source accesses lines[-1] only when remain_height has dropped below
the full budget, which implies at least one line exists already. -/
def LinesOK (p : Params) (st : SplitState) : Prop :=
  st.remain < p.validHeight → st.lines ≠ []

theorem appendRunToLast_ne_nil (r : Run) :
    ∀ lines : List LineRec, lines ≠ [] → appendRunToLast lines r ≠ []
  | [], h => absurd rfl h
  | [_], _ => by simp [appendRunToLast]
  | _ :: _ :: _, _ => by simp [appendRunToLast]

theorem contentConcat_cons (ln : LineRec) (l : List LineRec) :
    contentConcat (ln :: l) = (ln.line.map runContent).flatten ++ contentConcat l := by
  simp [contentConcat]

theorem contentConcat_append (l1 l2 : List LineRec) :
    contentConcat (l1 ++ l2) = contentConcat l1 ++ contentConcat l2 := by
  simp [contentConcat]

theorem contentConcat_appendRunToLast (r : Run) :
    ∀ lines : List LineRec, lines ≠ [] →
      contentConcat (appendRunToLast lines r) = contentConcat lines ++ runContent r
  | [], h => absurd rfl h
  | [ln], _ => by simp [appendRunToLast, contentConcat]
  | ln :: ln2 :: rest, _ => by
    have ih := contentConcat_appendRunToLast r (ln2 :: rest) (by simp)
    show contentConcat (ln :: appendRunToLast (ln2 :: rest) r) = _
    rw [contentConcat_cons, ih]
    simp [contentConcat_cons, List.append_assoc]

theorem contentConcat_appendAnnoRunToLast (v : List Char) :
    ∀ lines : List LineRec,
      contentConcat (appendRunToLast lines ⟨TextType.anno, v⟩) = contentConcat lines
  | [] => rfl
  | [ln] => by simp [appendRunToLast, contentConcat, runContent]
  | ln :: ln2 :: rest => by
    have ih := contentConcat_appendAnnoRunToLast v (ln2 :: rest)
    show contentConcat (ln :: appendRunToLast (ln2 :: rest) _) = _
    rw [contentConcat_cons, ih]
    simp [contentConcat_cons]

theorem foldl_contentEmit_lines (p : Params) (ch : List Char) :
    ∀ (parts : List (List Char)) (st0 : SplitState),
      (parts.foldl (contentEmit p ch) st0).lines =
        st0.lines ++ parts.map fun part => (⟨ch, [⟨TextType.content, part⟩]⟩ : LineRec)
  | [], st0 => by simp
  | part :: rest, st0 => by
    rw [List.foldl_cons, foldl_contentEmit_lines p ch rest]
    simp [contentEmit]

theorem foldl_annotationEmit_lines (p : Params) (ch : List Char) :
    ∀ (parts : List (List Char)) (st0 : SplitState),
      (parts.foldl (annotationEmit p ch) st0).lines =
        st0.lines ++ parts.map fun part => (⟨ch, [⟨TextType.anno, part⟩]⟩ : LineRec)
  | [], st0 => by simp
  | part :: rest, st0 => by
    rw [List.foldl_cons, foldl_annotationEmit_lines p ch rest]
    simp [annotationEmit]

theorem contentConcat_content_lines (ch : List Char) :
    ∀ parts : List (List Char),
      contentConcat (parts.map fun part => (⟨ch, [⟨TextType.content, part⟩]⟩ : LineRec)) =
        parts.flatten
  | [] => rfl
  | part :: rest => by
    rw [List.map_cons, contentConcat_cons, contentConcat_content_lines ch rest]
    simp [runContent]

theorem contentConcat_anno_lines (ch : List Char) :
    ∀ parts : List (List Char),
      contentConcat (parts.map fun part => (⟨ch, [⟨TextType.anno, part⟩]⟩ : LineRec)) = []
  | [] => rfl
  | part :: rest => by
    rw [List.map_cons, contentConcat_cons, contentConcat_anno_lines ch rest]
    simp [runContent]

theorem contentCarry_cc (p : Params) (st : SplitState) (s : List Char)
    (hOK : LinesOK p st) :
    contentConcat (contentCarry p st s).1.lines ++ (contentCarry p st s).2 =
      contentConcat st.lines ++ s := by
  unfold contentCarry
  by_cases h1 : st.remain < p.validHeight
  · have hne : st.lines ≠ [] := hOK h1
    rw [if_pos h1]
    by_cases h2 : st.remain.fdiv p.contentCell = 0
    · rw [if_pos h2]
    · rw [if_neg h2]
      by_cases h3 : st.remain.fdiv p.contentCell < (s.length : Int)
      · rw [if_pos h3]
        show contentConcat (appendRunToLast st.lines _) ++ _ = _
        rw [contentConcat_appendRunToLast _ st.lines hne]
        show _ ++ runContent ⟨TextType.content, pyTake _ s⟩ ++ _ = _
        rw [List.append_assoc]
        show _ ++ (pyTake _ s ++ pyDrop _ s) = _
        rw [pyTake_append_pyDrop]
      · rw [if_neg h3]
        show contentConcat (appendRunToLast st.lines _) ++ [] = _
        rw [contentConcat_appendRunToLast _ st.lines hne, List.append_nil]
        rfl
  · rw [if_neg h1]

theorem contentCarry_linesOK (p : Params) (st : SplitState) (s : List Char)
    (hOK : LinesOK p st) : LinesOK p (contentCarry p st s).1 := by
  unfold contentCarry
  by_cases h1 : st.remain < p.validHeight
  · have hne : st.lines ≠ [] := hOK h1
    rw [if_pos h1]
    by_cases h2 : st.remain.fdiv p.contentCell = 0
    · rw [if_pos h2]
      intro h
      exact absurd h (lt_irrefl _)
    · rw [if_neg h2]
      by_cases h3 : st.remain.fdiv p.contentCell < (s.length : Int)
      · rw [if_pos h3]
        intro h
        exact absurd h (lt_irrefl _)
      · rw [if_neg h3]
        intro _
        exact appendRunToLast_ne_nil _ st.lines hne
  · rw [if_neg h1]
    exact hOK

theorem foldl_contentEmit_linesOK (p : Params) (ch : List Char)
    (parts : List (List Char)) (st0 : SplitState) (hOK : LinesOK p st0) :
    LinesOK p (parts.foldl (contentEmit p ch) st0) := by
  cases parts with
  | nil => exact hOK
  | cons part rest =>
    intro _
    rw [foldl_contentEmit_lines]
    simp [contentEmit]

theorem foldl_annotationEmit_linesOK (p : Params) (ch : List Char)
    (parts : List (List Char)) (st0 : SplitState) (hOK : LinesOK p st0) :
    LinesOK p (parts.foldl (annotationEmit p ch) st0) := by
  cases parts with
  | nil => exact hOK
  | cons part rest =>
    intro _
    rw [foldl_annotationEmit_lines]
    simp [annotationEmit]

theorem contentStep_cc (p : Params) (ch : List Char) (st : SplitState)
    (s : List Char) (hmc : 0 < p.maxContentChars) (hOK : LinesOK p st) :
    contentConcat (contentStep p ch st s).lines = contentConcat st.lines ++ s := by
  unfold contentStep
  rw [foldl_contentEmit_lines, contentConcat_append, contentConcat_content_lines,
    cut_join p.maxContentChars hmc, contentCarry_cc p st s hOK]

theorem contentStep_linesOK (p : Params) (ch : List Char) (st : SplitState)
    (s : List Char) (hOK : LinesOK p st) : LinesOK p (contentStep p ch st s) :=
  foldl_contentEmit_linesOK p ch _ _ (contentCarry_linesOK p st s hOK)

theorem annotationCarry_cc (p : Params) (st : SplitState) (a : List Char) :
    contentConcat (annotationCarry p st a).1.lines = contentConcat st.lines := by
  unfold annotationCarry
  by_cases h1 : a ≠ [] ∧ st.remain < p.validHeight
  · rw [if_pos h1]
    by_cases h2 : st.remain.fdiv p.annotationCell * 2 = 0
    · rw [if_pos h2]
    · rw [if_neg h2]
      by_cases h3 : st.remain.fdiv p.annotationCell * 2 < (a.length : Int)
      · rw [if_pos h3]
        exact contentConcat_appendAnnoRunToLast _ st.lines
      · rw [if_neg h3]
        exact contentConcat_appendAnnoRunToLast _ st.lines
  · rw [if_neg h1]

theorem annotationCarry_linesOK (p : Params) (st : SplitState) (a : List Char)
    (hOK : LinesOK p st) : LinesOK p (annotationCarry p st a).1 := by
  unfold annotationCarry
  by_cases h1 : a ≠ [] ∧ st.remain < p.validHeight
  · have hne : st.lines ≠ [] := hOK h1.2
    rw [if_pos h1]
    by_cases h2 : st.remain.fdiv p.annotationCell * 2 = 0
    · rw [if_pos h2]
      intro h
      exact absurd h (lt_irrefl _)
    · rw [if_neg h2]
      by_cases h3 : st.remain.fdiv p.annotationCell * 2 < (a.length : Int)
      · rw [if_pos h3]
        intro h
        exact absurd h (lt_irrefl _)
      · rw [if_neg h3]
        intro _
        exact appendRunToLast_ne_nil _ st.lines hne
  · rw [if_neg h1]
    exact hOK

theorem annotationStep_cc (p : Params) (ch : List Char) (st : SplitState)
    (a : List Char) :
    contentConcat (annotationStep p ch st a).lines = contentConcat st.lines := by
  unfold annotationStep
  rw [foldl_annotationEmit_lines, contentConcat_append, contentConcat_anno_lines,
    List.append_nil, annotationCarry_cc]

theorem annotationStep_linesOK (p : Params) (ch : List Char) (st : SplitState)
    (a : List Char) (hOK : LinesOK p st) : LinesOK p (annotationStep p ch st a) :=
  foldl_annotationEmit_linesOK p ch _ _ (annotationCarry_linesOK p st a hOK)

theorem sentenceStep_cc (p : Params) (ch : List Char) (st : SplitState)
    (s a : List Char) (hmc : 0 < p.maxContentChars) (hOK : LinesOK p st) :
    contentConcat (sentenceStep p ch st s a).lines = contentConcat st.lines ++ s := by
  unfold sentenceStep
  rw [annotationStep_cc, contentStep_cc p ch st s hmc hOK]

theorem sentenceStep_linesOK (p : Params) (ch : List Char) (st : SplitState)
    (s a : List Char) (hOK : LinesOK p st) : LinesOK p (sentenceStep p ch st s a) :=
  annotationStep_linesOK p ch _ a (contentStep_linesOK p ch st s hOK)

theorem splitLoop_cc (p : Params) (ch : List Char) (hmc : 0 < p.maxContentChars) :
    ∀ (ss ans : List (List Char)) (st : SplitState), LinesOK p st →
      contentConcat (splitLoop p ch st ss ans).lines =
        contentConcat st.lines ++ ss.flatten := by
  intro ss
  induction ss with
  | nil =>
    intro ans st _
    cases ans <;> simp [splitLoop]
  | cons s ss ih =>
    intro ans st hOK
    cases ans with
    | nil =>
      rw [splitLoop, ih [] _ (sentenceStep_linesOK p ch st s [] hOK),
        sentenceStep_cc p ch st s [] hmc hOK, List.flatten_cons, List.append_assoc]
    | cons a ans =>
      rw [splitLoop, ih ans _ (sentenceStep_linesOK p ch st s a hOK),
        sentenceStep_cc p ch st s a hmc hOK, List.flatten_cons, List.append_assoc]

/-- Claim C1: for every paragraph (sentences with aligned optional
annotations) and every choice of the layout parameters with a positive
content chunk size, concatenating the values of all CONTENT runs produced by
split_paragraph, in line order and within a line in run order, reproduces the
concatenation of the original sentences exactly.  (A zero chunk size makes
the source raise ValueError inside cut, producing no runs at all, hence the
positivity hypothesis.) -/
theorem split_paragraph_preserves_content (p : Params) (ch : List Char)
    (sentences annots : List (List Char)) (hmc : 0 < p.maxContentChars) :
    contentConcat (splitParagraph p ch sentences annots) = sentences.flatten := by
  unfold splitParagraph splitParagraphState
  rw [splitLoop_cc p ch hmc sentences annots ⟨[], p.validHeight⟩
    (fun h => absurd h (lt_irrefl _))]
  rfl

/-!
## Bounds on the carried remain_height (claim C4)
-/

theorem contentCarry_remain (p : Params) (st : SplitState) (s : List Char)
    (hcc : 0 < p.contentCell) (hv : 0 ≤ p.validHeight)
    (hub : st.remain ≤ p.validHeight) :
    0 ≤ (contentCarry p st s).1.remain ∧
      (contentCarry p st s).1.remain ≤ p.validHeight := by
  unfold contentCarry
  by_cases h1 : st.remain < p.validHeight
  · rw [if_pos h1]
    by_cases h2 : st.remain.fdiv p.contentCell = 0
    · rw [if_pos h2]
      exact ⟨hv, le_rfl⟩
    · rw [if_neg h2]
      by_cases h3 : st.remain.fdiv p.contentCell < (s.length : Int)
      · rw [if_pos h3]
        exact ⟨hv, le_rfl⟩
      · rw [if_neg h3]
        push_neg at h3
        have hfd : st.remain.fdiv p.contentCell = st.remain / p.contentCell :=
          Int.fdiv_eq_ediv _ (le_of_lt hcc)
        rw [hfd] at h2 h3
        have hmul : st.remain / p.contentCell * p.contentCell ≤ st.remain :=
          Int.ediv_mul_le _ (ne_of_gt hcc)
        have hlen : (s.length : Int) * p.contentCell ≤
            st.remain / p.contentCell * p.contentCell :=
          mul_le_mul_of_nonneg_right h3 (le_of_lt hcc)
        have hlc : 0 ≤ (s.length : Int) * p.contentCell :=
          mul_nonneg (Int.natCast_nonneg _) (le_of_lt hcc)
        exact ⟨by simp only [SplitState.remain]; linarith,
          by simp only [SplitState.remain]; linarith⟩
  · rw [if_neg h1]
    push_neg at h1
    exact ⟨le_trans hv h1, hub⟩

theorem contentCarry_remain_of_rest (p : Params) (st : SplitState) (s : List Char)
    (hub : st.remain ≤ p.validHeight) (hne : (contentCarry p st s).2 ≠ []) :
    (contentCarry p st s).1.remain = p.validHeight := by
  unfold contentCarry at hne ⊢
  by_cases h1 : st.remain < p.validHeight
  · rw [if_pos h1] at hne ⊢
    by_cases h2 : st.remain.fdiv p.contentCell = 0
    · rw [if_pos h2]
    · rw [if_neg h2] at hne ⊢
      by_cases h3 : st.remain.fdiv p.contentCell < (s.length : Int)
      · rw [if_pos h3]
      · rw [if_neg h3] at hne
        exact absurd rfl hne
  · rw [if_neg h1] at hne ⊢
    push_neg at h1
    exact le_antisymm hub h1

theorem foldl_contentEmit_remain (p : Params) (ch : List Char)
    (hcc : 0 < p.contentCell) (hv : 0 ≤ p.validHeight)
    (hmcEq : (p.maxContentChars : Int) = p.validHeight.fdiv p.contentCell) :
    ∀ n, ∀ text : List Char, text.length ≤ n → ∀ st0 : SplitState,
      st0.remain = p.validHeight →
      0 ≤ ((cut text p.maxContentChars).foldl (contentEmit p ch) st0).remain ∧
      ((cut text p.maxContentChars).foldl (contentEmit p ch) st0).remain ≤
        p.validHeight := by
  have hfd : p.validHeight.fdiv p.contentCell = p.validHeight / p.contentCell :=
    Int.fdiv_eq_ediv _ (le_of_lt hcc)
  rw [hfd] at hmcEq
  have hEmul : p.validHeight / p.contentCell * p.contentCell ≤ p.validHeight :=
    Int.ediv_mul_le _ (ne_of_gt hcc)
  intro n
  induction n with
  | zero =>
    intro text h st0 h0
    have : text = [] := List.eq_nil_of_length_eq_zero (Nat.le_zero.mp h)
    subst this
    rw [cut_nil, List.foldl_nil, h0]
    exact ⟨hv, le_rfl⟩
  | succ n ih =>
    intro text h st0 h0
    by_cases ht : text = []
    · subst ht
      rw [cut_nil, List.foldl_nil, h0]
      exact ⟨hv, le_rfl⟩
    · by_cases hm0 : p.maxContentChars = 0
      · rw [hm0, cut_zero, List.foldl_nil, h0]
        exact ⟨hv, le_rfl⟩
      · rw [cut_pos text _ ht hm0, List.foldl_cons]
        by_cases hlen : text.length < p.maxContentChars
        · have hdrop : text.drop p.maxContentChars = [] :=
            List.drop_eq_nil_of_le (le_of_lt hlen)
          rw [hdrop, cut_nil, List.foldl_nil]
          have htake : (text.take p.maxContentChars).length = text.length := by
            simp only [List.length_take]
            omega
          unfold contentEmit
          rw [htake, if_pos hlen, h0]
          have hlenI : (text.length : Int) ≤ (p.maxContentChars : Int) - 1 := by
            omega
          rw [hmcEq] at hlenI
          have hmm : (text.length : Int) * p.contentCell ≤
              (p.validHeight / p.contentCell - 1) * p.contentCell :=
            mul_le_mul_of_nonneg_right hlenI (le_of_lt hcc)
          have hexp : (p.validHeight / p.contentCell - 1) * p.contentCell =
              p.validHeight / p.contentCell * p.contentCell - p.contentCell := by ring
          have hlc : 0 ≤ (text.length : Int) * p.contentCell :=
            mul_nonneg (Int.natCast_nonneg _) (le_of_lt hcc)
          constructor
          · simp only [SplitState.remain]
            linarith
          · simp only [SplitState.remain]
            linarith
        · push_neg at hlen
          have htake : (text.take p.maxContentChars).length = p.maxContentChars := by
            simp only [List.length_take]
            omega
          have h1 : (contentEmit p ch st0 (text.take p.maxContentChars)).remain =
              p.validHeight := by
            unfold contentEmit
            rw [htake, if_neg (lt_irrefl _)]
          have hrec : (text.drop p.maxContentChars).length ≤ n := by
            simp only [List.length_drop]
            omega
          exact ih (text.drop p.maxContentChars) hrec _ h1

theorem contentStep_remain (p : Params) (ch : List Char) (st : SplitState)
    (s : List Char) (hcc : 0 < p.contentCell) (hv : 0 ≤ p.validHeight)
    (hmcEq : (p.maxContentChars : Int) = p.validHeight.fdiv p.contentCell)
    (hub : st.remain ≤ p.validHeight) :
    0 ≤ (contentStep p ch st s).remain ∧
      (contentStep p ch st s).remain ≤ p.validHeight := by
  unfold contentStep
  by_cases hrest : (contentCarry p st s).2 = []
  · rw [hrest, cut_nil, List.foldl_nil]
    exact contentCarry_remain p st s hcc hv hub
  · exact foldl_contentEmit_remain p ch hcc hv hmcEq (contentCarry p st s).2.length _
      le_rfl _ (contentCarry_remain_of_rest p st s hub hrest)

theorem annotationCarry_remain (p : Params) (st : SplitState) (a : List Char)
    (hac : 0 < p.annotationCell) (hlb : 0 ≤ st.remain)
    (hub : st.remain ≤ p.validHeight) :
    -p.annotationCell ≤ (annotationCarry p st a).1.remain ∧
      (annotationCarry p st a).1.remain ≤ p.validHeight := by
  have hv : 0 ≤ p.validHeight := le_trans hlb hub
  unfold annotationCarry
  by_cases h1 : a ≠ [] ∧ st.remain < p.validHeight
  · rw [if_pos h1]
    by_cases h2 : st.remain.fdiv p.annotationCell * 2 = 0
    · rw [if_pos h2]
      exact ⟨by linarith, le_rfl⟩
    · rw [if_neg h2]
      by_cases h3 : st.remain.fdiv p.annotationCell * 2 < (a.length : Int)
      · rw [if_pos h3]
        exact ⟨by linarith, le_rfl⟩
      · rw [if_neg h3]
        push_neg at h3
        have hfd : st.remain.fdiv p.annotationCell = st.remain / p.annotationCell :=
          Int.fdiv_eq_ediv _ (le_of_lt hac)
        rw [hfd] at h2 h3
        have hF0 : 0 ≤ st.remain / p.annotationCell :=
          Int.ediv_nonneg hlb (le_of_lt hac)
        have hFm : st.remain / p.annotationCell * p.annotationCell ≤ st.remain :=
          Int.ediv_mul_le _ (ne_of_gt hac)
        have hceil : (ceilHalf a.length : Int) ≤ st.remain / p.annotationCell := by
          have hFt : ((st.remain / p.annotationCell).toNat : Int) =
              st.remain / p.annotationCell := Int.toNat_of_nonneg hF0
          have h2F : (a.length : Int) ≤
              2 * ((st.remain / p.annotationCell).toNat : Int) := by
            rw [hFt]
            linarith
          have hNat : a.length ≤ 2 * (st.remain / p.annotationCell).toNat := by
            exact_mod_cast h2F
          have hcN : ceilHalf a.length ≤ (st.remain / p.annotationCell).toNat := by
            unfold ceilHalf
            omega
          calc (ceilHalf a.length : Int)
              ≤ ((st.remain / p.annotationCell).toNat : Int) := by exact_mod_cast hcN
            _ = st.remain / p.annotationCell := hFt
        have hcm : (ceilHalf a.length : Int) * p.annotationCell ≤
            st.remain / p.annotationCell * p.annotationCell :=
          mul_le_mul_of_nonneg_right hceil (le_of_lt hac)
        have hc0 : 0 ≤ (ceilHalf a.length : Int) * p.annotationCell :=
          mul_nonneg (Int.natCast_nonneg _) (le_of_lt hac)
        by_cases hodd : ceilHalf a.length % 2 ≠ 0
        · rw [if_pos hodd]
          exact ⟨by simp only [SplitState.remain]; linarith,
            by simp only [SplitState.remain]; linarith⟩
        · rw [if_neg hodd]
          exact ⟨by simp only [SplitState.remain]; linarith,
            by simp only [SplitState.remain]; linarith⟩
  · rw [if_neg h1]
    exact ⟨by linarith, hub⟩

theorem annotationCarry_remain_of_rest (p : Params) (st : SplitState)
    (a : List Char) (hub : st.remain ≤ p.validHeight)
    (hne : (annotationCarry p st a).2 ≠ []) :
    (annotationCarry p st a).1.remain = p.validHeight := by
  unfold annotationCarry at hne ⊢
  by_cases h1 : a ≠ [] ∧ st.remain < p.validHeight
  · rw [if_pos h1] at hne ⊢
    by_cases h2 : st.remain.fdiv p.annotationCell * 2 = 0
    · rw [if_pos h2]
    · rw [if_neg h2] at hne ⊢
      by_cases h3 : st.remain.fdiv p.annotationCell * 2 < (a.length : Int)
      · rw [if_pos h3]
      · rw [if_neg h3] at hne
        exact absurd rfl hne
  · rw [if_neg h1] at hne ⊢
    push_neg at h1
    have ha : a ≠ [] := hne
    exact le_antisymm hub (h1 ha)

theorem foldl_annotationEmit_remain (p : Params) (ch : List Char)
    (hac : 0 < p.annotationCell) (hv : 0 ≤ p.validHeight)
    (hmaEq : (p.maxAnnotationChars : Int) =
      p.validHeight.fdiv p.annotationCell * 2) :
    ∀ n, ∀ text : List Char, text.length ≤ n → ∀ st0 : SplitState,
      st0.remain = p.validHeight →
      0 ≤ ((cut text p.maxAnnotationChars).foldl (annotationEmit p ch) st0).remain ∧
      ((cut text p.maxAnnotationChars).foldl (annotationEmit p ch) st0).remain ≤
        p.validHeight := by
  have hfd : p.validHeight.fdiv p.annotationCell =
      p.validHeight / p.annotationCell := Int.fdiv_eq_ediv _ (le_of_lt hac)
  rw [hfd] at hmaEq
  have hE0 : 0 ≤ p.validHeight / p.annotationCell := Int.ediv_nonneg hv (le_of_lt hac)
  have hEmul : p.validHeight / p.annotationCell * p.annotationCell ≤ p.validHeight :=
    Int.ediv_mul_le _ (ne_of_gt hac)
  have hEt : ((p.validHeight / p.annotationCell).toNat : Int) =
      p.validHeight / p.annotationCell := Int.toNat_of_nonneg hE0
  have hmaNat : p.maxAnnotationChars = 2 * (p.validHeight / p.annotationCell).toNat := by
    have : (p.maxAnnotationChars : Int) =
        ((2 * (p.validHeight / p.annotationCell).toNat : Nat) : Int) := by
      push_cast
      rw [hEt]
      linarith
    exact_mod_cast this
  intro n
  induction n with
  | zero =>
    intro text h st0 h0
    have : text = [] := List.eq_nil_of_length_eq_zero (Nat.le_zero.mp h)
    subst this
    rw [cut_nil, List.foldl_nil, h0]
    exact ⟨hv, le_rfl⟩
  | succ n ih =>
    intro text h st0 h0
    by_cases ht : text = []
    · subst ht
      rw [cut_nil, List.foldl_nil, h0]
      exact ⟨hv, le_rfl⟩
    · by_cases hm0 : p.maxAnnotationChars = 0
      · rw [hm0, cut_zero, List.foldl_nil, h0]
        exact ⟨hv, le_rfl⟩
      · rw [cut_pos text _ ht hm0, List.foldl_cons]
        by_cases hlen : text.length < p.maxAnnotationChars
        · have hdrop : text.drop p.maxAnnotationChars = [] :=
            List.drop_eq_nil_of_le (le_of_lt hlen)
          rw [hdrop, cut_nil, List.foldl_nil]
          have htake : (text.take p.maxAnnotationChars).length = text.length := by
            simp only [List.length_take]
            omega
          unfold annotationEmit
          rw [htake]
          by_cases hfull : text.length < p.maxAnnotationChars - 1
          · rw [if_pos hfull, h0]
            have hM1 : 1 ≤ (p.validHeight / p.annotationCell).toNat := by omega
            have hcN : ceilHalf text.length ≤
                (p.validHeight / p.annotationCell).toNat - 1 := by
              unfold ceilHalf
              omega
            have hcI : (ceilHalf text.length : Int) ≤
                p.validHeight / p.annotationCell - 1 := by
              have : (ceilHalf text.length : Int) ≤
                  (((p.validHeight / p.annotationCell).toNat - 1 : Nat) : Int) := by
                exact_mod_cast hcN
              calc (ceilHalf text.length : Int)
                  ≤ (((p.validHeight / p.annotationCell).toNat - 1 : Nat) : Int) := this
                _ = ((p.validHeight / p.annotationCell).toNat : Int) - 1 := by
                    have : 1 ≤ (p.validHeight / p.annotationCell).toNat := hM1
                    push_cast [this]
                    ring
                _ = p.validHeight / p.annotationCell - 1 := by rw [hEt]
            have hcm : (ceilHalf text.length : Int) * p.annotationCell ≤
                (p.validHeight / p.annotationCell - 1) * p.annotationCell :=
              mul_le_mul_of_nonneg_right hcI (le_of_lt hac)
            have hexp : (p.validHeight / p.annotationCell - 1) * p.annotationCell =
                p.validHeight / p.annotationCell * p.annotationCell -
                  p.annotationCell := by ring
            have hc0 : 0 ≤ (ceilHalf text.length : Int) * p.annotationCell :=
              mul_nonneg (Int.natCast_nonneg _) (le_of_lt hac)
            constructor
            · simp only [SplitState.remain]
              linarith
            · simp only [SplitState.remain]
              linarith
          · rw [if_neg hfull]
            exact ⟨hv, le_rfl⟩
        · push_neg at hlen
          have htake : (text.take p.maxAnnotationChars).length =
              p.maxAnnotationChars := by
            simp only [List.length_take]
            omega
          have h1 : (annotationEmit p ch st0 (text.take p.maxAnnotationChars)).remain =
              p.validHeight := by
            unfold annotationEmit
            rw [htake, if_neg (by omega)]
          have hrec : (text.drop p.maxAnnotationChars).length ≤ n := by
            simp only [List.length_drop]
            omega
          exact ih (text.drop p.maxAnnotationChars) hrec _ h1

theorem annotationStep_remain (p : Params) (ch : List Char) (st : SplitState)
    (a : List Char) (hac : 0 < p.annotationCell) (hlb : 0 ≤ st.remain)
    (hub : st.remain ≤ p.validHeight)
    (hmaEq : (p.maxAnnotationChars : Int) =
      p.validHeight.fdiv p.annotationCell * 2) :
    -p.annotationCell ≤ (annotationStep p ch st a).remain ∧
      (annotationStep p ch st a).remain ≤ p.validHeight := by
  have hv : 0 ≤ p.validHeight := le_trans hlb hub
  unfold annotationStep
  by_cases hrest : (annotationCarry p st a).2 = []
  · rw [hrest, cut_nil, List.foldl_nil]
    exact annotationCarry_remain p st a hac hlb hub
  · have := foldl_annotationEmit_remain p ch hac hv hmaEq
      (annotationCarry p st a).2.length _ le_rfl _
      (annotationCarry_remain_of_rest p st a hub hrest)
    exact ⟨le_trans (by linarith) this.1, this.2⟩

/-- The invariant carried by the sentence loop for the remain_height bounds:
the budget is between minus one annotation cell and the full valid height,
and a partially used budget implies an existing line. -/
def InvB (p : Params) (st : SplitState) : Prop :=
  -p.annotationCell ≤ st.remain ∧ st.remain ≤ p.validHeight ∧ LinesOK p st

theorem sentenceStep_invB (p : Params) (ch : List Char) (st : SplitState)
    (s a : List Char) (hcc : 0 < p.contentCell) (hac : 0 < p.annotationCell)
    (hv : 0 ≤ p.validHeight)
    (hmcEq : (p.maxContentChars : Int) = p.validHeight.fdiv p.contentCell)
    (hmaEq : (p.maxAnnotationChars : Int) =
      p.validHeight.fdiv p.annotationCell * 2)
    (hInv : InvB p st) :
    (0 ≤ (contentStep p ch st s).remain ∧
      (contentStep p ch st s).remain ≤ p.validHeight) ∧
    InvB p (sentenceStep p ch st s a) := by
  obtain ⟨_, hub, hOK⟩ := hInv
  have hc := contentStep_remain p ch st s hcc hv hmcEq hub
  have hcOK := contentStep_linesOK p ch st s hOK
  have ha := annotationStep_remain p ch _ a hac hc.1 hc.2 hmaEq
  exact ⟨hc, ha.1, ha.2, annotationStep_linesOK p ch _ a hcOK⟩

theorem splitLoop_invB (p : Params) (ch : List Char) (hcc : 0 < p.contentCell)
    (hac : 0 < p.annotationCell) (hv : 0 ≤ p.validHeight)
    (hmcEq : (p.maxContentChars : Int) = p.validHeight.fdiv p.contentCell)
    (hmaEq : (p.maxAnnotationChars : Int) =
      p.validHeight.fdiv p.annotationCell * 2) :
    ∀ (ss ans : List (List Char)) (st : SplitState), InvB p st →
      InvB p (splitLoop p ch st ss ans) := by
  intro ss
  induction ss with
  | nil =>
    intro ans st h
    cases ans <;> exact h
  | cons s ss ih =>
    intro ans st h
    cases ans with
    | nil =>
      rw [splitLoop]
      exact ih [] _ (sentenceStep_invB p ch st s [] hcc hac hv hmcEq hmaEq h).2
    | cons a ans =>
      rw [splitLoop]
      exact ih ans _ (sentenceStep_invB p ch st s a hcc hac hv hmcEq hmaEq h).2

/-- Claim C4 counterexample: with positive character cell heights produced by
the adjust_font reconciliation (content cell 3, annotation cell 1, valid
height 21, max chars 7 and 42 exactly as adjust_font computes them), a
six character sentence followed by a six character annotation drives
remain_height to -1: the annotation fits exactly in the leftover three pair
slots, and the odd pair count (ceil(6/2) = 3) triggers an extra subtraction
of one annotation cell below zero.  This contradicts the claimed invariant
remain_height in [0, text_box_height]. -/
theorem remain_height_negative_counterexample :
    (0 : Int) <
      (⟨3, 0, 1, 0, 3, 22, 0, 1, 7, 7, 42, 1, 0, 0, 0, 0, 0, 0, 0, 0, 0⟩ :
        Params).contentCharHeight ∧
    (0 : Int) <
      (⟨3, 0, 1, 0, 3, 22, 0, 1, 7, 7, 42, 1, 0, 0, 0, 0, 0, 0, 0, 0, 0⟩ :
        Params).annotationCharHeight ∧
    ((⟨3, 0, 1, 0, 3, 22, 0, 1, 7, 7, 42, 1, 0, 0, 0, 0, 0, 0, 0, 0, 0⟩ :
        Params).maxContentChars : Int) =
      (⟨3, 0, 1, 0, 3, 22, 0, 1, 7, 7, 42, 1, 0, 0, 0, 0, 0, 0, 0, 0, 0⟩ :
        Params).validHeight.fdiv
        (⟨3, 0, 1, 0, 3, 22, 0, 1, 7, 7, 42, 1, 0, 0, 0, 0, 0, 0, 0, 0, 0⟩ :
          Params).contentCell ∧
    ((⟨3, 0, 1, 0, 3, 22, 0, 1, 7, 7, 42, 1, 0, 0, 0, 0, 0, 0, 0, 0, 0⟩ :
        Params).maxAnnotationChars : Int) =
      (⟨3, 0, 1, 0, 3, 22, 0, 1, 7, 7, 42, 1, 0, 0, 0, 0, 0, 0, 0, 0, 0⟩ :
        Params).validHeight.fdiv
        (⟨3, 0, 1, 0, 3, 22, 0, 1, 7, 7, 42, 1, 0, 0, 0, 0, 0, 0, 0, 0, 0⟩ :
          Params).annotationCell * 2 ∧
    (splitParagraphState
        ⟨3, 0, 1, 0, 3, 22, 0, 1, 7, 7, 42, 1, 0, 0, 0, 0, 0, 0, 0, 0, 0⟩ []
        [['a', 'a', 'a', 'a', 'a', 'a']] [['b', 'b', 'b', 'b', 'b', 'b']]).remain
      < 0 := by
  decide

/-- Claim C4 amended: for parameters consistent with adjust_font (positive
content and annotation cells, max chars per line equal to the floor division
of the valid height by the respective cell, both positive), the carried
remain_height of split_paragraph always stays at most the valid height (and
hence at most text_box_height), and at least minus one annotation cell; it is
never below zero right after a sentence's content is placed, and it can only
dip below zero (by at most one annotation cell) through the odd pair count
reservation of an exactly fitting annotation.  The originally claimed lower
bound 0 does not hold (see the counterexample). -/
theorem split_paragraph_remain_bounds (p : Params) (ch : List Char)
    (sentences annots : List (List Char)) (hcc : 0 < p.contentCell)
    (hac : 0 < p.annotationCell)
    (hmcEq : (p.maxContentChars : Int) = p.validHeight.fdiv p.contentCell)
    (hmaEq : (p.maxAnnotationChars : Int) =
      p.validHeight.fdiv p.annotationCell * 2)
    (hmc : 0 < p.maxContentChars) :
    (-p.annotationCell ≤ (splitParagraphState p ch sentences annots).remain ∧
      (splitParagraphState p ch sentences annots).remain ≤ p.validHeight) ∧
    ∀ s : List Char,
      0 ≤ (contentStep p ch (splitParagraphState p ch sentences annots) s).remain ∧
      (contentStep p ch (splitParagraphState p ch sentences annots) s).remain ≤
        p.validHeight := by
  have hv : 0 ≤ p.validHeight := by
    by_contra hneg
    push_neg at hneg
    have hfd : p.validHeight.fdiv p.contentCell = p.validHeight / p.contentCell :=
      Int.fdiv_eq_ediv _ (le_of_lt hcc)
    have : p.validHeight / p.contentCell < 0 := Int.ediv_neg' hneg hcc
    rw [hfd] at hmcEq
    omega
  have hInit : InvB p (⟨[], p.validHeight⟩ : SplitState) :=
    ⟨by linarith, le_rfl, fun h => absurd h (lt_irrefl _)⟩
  have hFin := splitLoop_invB p ch hcc hac hv hmcEq hmaEq sentences annots _ hInit
  refine ⟨⟨hFin.1, hFin.2.1⟩, fun s => ?_⟩
  exact contentStep_remain p ch _ s hcc hv hmcEq hFin.2.1

/-- Witness for split_paragraph_remain_bounds at the counterexample
parameters: all consistency hypotheses hold there and the amended bounds
apply to the paragraph that drives remain_height to -1. -/
theorem split_paragraph_remain_bounds_witness :
    ((0 : Int) <
      (⟨3, 0, 1, 0, 3, 22, 0, 1, 7, 7, 42, 1, 0, 0, 0, 0, 0, 0, 0, 0, 0⟩ :
        Params).contentCell) ∧
    (-(⟨3, 0, 1, 0, 3, 22, 0, 1, 7, 7, 42, 1, 0, 0, 0, 0, 0, 0, 0, 0, 0⟩ :
        Params).annotationCell ≤
      (splitParagraphState
        ⟨3, 0, 1, 0, 3, 22, 0, 1, 7, 7, 42, 1, 0, 0, 0, 0, 0, 0, 0, 0, 0⟩ []
        [['a', 'a', 'a', 'a', 'a', 'a']] [['b', 'b', 'b', 'b', 'b', 'b']]).remain ∧
      (splitParagraphState
        ⟨3, 0, 1, 0, 3, 22, 0, 1, 7, 7, 42, 1, 0, 0, 0, 0, 0, 0, 0, 0, 0⟩ []
        [['a', 'a', 'a', 'a', 'a', 'a']] [['b', 'b', 'b', 'b', 'b', 'b']]).remain ≤
      (⟨3, 0, 1, 0, 3, 22, 0, 1, 7, 7, 42, 1, 0, 0, 0, 0, 0, 0, 0, 0, 0⟩ :
        Params).validHeight) :=
  ⟨by decide,
    (split_paragraph_remain_bounds _ [] _ _ (by decide) (by decide) (by decide)
      (by decide) (by decide)).1⟩

/-!
## Provenance instrumented copy of split_paragraph (claim C7)

The same splitting procedure, with every run additionally tagged by the
index of the sentence/annotation it was cut from.  The theorem for claim
C7 relates the tagged output back to split_paragraph by erasing the tags
(so the instrumentation demonstrably changes nothing), and shows that the
tag keys are nondecreasing along the flattened run sequence, where a
sentence's CONTENT key 2i is strictly below its annotation's ANNOTATION
key 2i + 1.
-/

/-- A run together with the index of the sentence or annotation it
originates from. -/
structure RunT where
  type : TextType
  origin : Nat
  value : List Char
deriving DecidableEq, Repr

/-- A line of tagged runs. -/
structure LineT where
  chapter : List Char
  line : List RunT
deriving DecidableEq, Repr

def eraseRun (r : RunT) : Run := ⟨r.type, r.value⟩

def eraseLine (ln : LineT) : LineRec := ⟨ln.chapter, ln.line.map eraseRun⟩

def eraseLines (l : List LineT) : List LineRec := l.map eraseLine

/-- Loop state of the tagged splitting procedure. -/
structure SplitStateT where
  lines : List LineT
  remain : Int
deriving DecidableEq, Repr

def eraseState (st : SplitStateT) : SplitState := ⟨eraseLines st.lines, st.remain⟩

theorem eraseState_remain (st : SplitStateT) : (eraseState st).remain = st.remain := rfl

theorem eraseState_lines (st : SplitStateT) :
    (eraseState st).lines = eraseLines st.lines := rfl

def appendRunToLastT (lines : List LineT) (r : RunT) : List LineT :=
  match lines with
  | [] => []
  | [ln] => [⟨ln.chapter, ln.line ++ [r]⟩]
  | ln :: rest => ln :: appendRunToLastT rest r

theorem eraseLines_appendRunToLastT (r : RunT) :
    ∀ lines : List LineT,
      eraseLines (appendRunToLastT lines r) =
        appendRunToLast (eraseLines lines) (eraseRun r)
  | [] => rfl
  | [ln] => by simp [appendRunToLastT, eraseLines, eraseLine, appendRunToLast]
  | ln :: ln2 :: rest => by
    have ih := eraseLines_appendRunToLastT r (ln2 :: rest)
    show eraseLines (ln :: appendRunToLastT (ln2 :: rest) r) = _
    show eraseLine ln :: eraseLines (appendRunToLastT (ln2 :: rest) r) = _
    rw [ih]
    rfl

/-- Tagged content carry block. -/
def contentCarryT (p : Params) (i : Nat) (st : SplitStateT) (sentence : List Char) :
    SplitStateT × List Char :=
  if st.remain < p.validHeight then
    let space := st.remain.fdiv p.contentCell
    if space = 0 then (⟨st.lines, p.validHeight⟩, sentence)
    else if space < (sentence.length : Int) then
      (⟨appendRunToLastT st.lines ⟨TextType.content, i, pyTake space sentence⟩,
        p.validHeight⟩, pyDrop space sentence)
    else
      (⟨appendRunToLastT st.lines ⟨TextType.content, i, sentence⟩,
        st.remain - (sentence.length : Int) * p.contentCell⟩, [])
  else (st, sentence)

/-- Tagged content chunk emission. -/
def contentEmitT (p : Params) (ch : List Char) (i : Nat) (acc : SplitStateT)
    (part : List Char) : SplitStateT :=
  ⟨acc.lines ++ [⟨ch, [⟨TextType.content, i, part⟩]⟩],
    if part.length < p.maxContentChars then
      acc.remain - (part.length : Int) * p.contentCell
    else p.validHeight⟩

/-- Tagged content step. -/
def contentStepT (p : Params) (ch : List Char) (i : Nat) (st : SplitStateT)
    (sentence : List Char) : SplitStateT :=
  (cut (contentCarryT p i st sentence).2 p.maxContentChars).foldl
    (contentEmitT p ch i) (contentCarryT p i st sentence).1

/-- Tagged annotation carry block. -/
def annotationCarryT (p : Params) (i : Nat) (st : SplitStateT) (annot : List Char) :
    SplitStateT × List Char :=
  if annot ≠ [] ∧ st.remain < p.validHeight then
    let space := st.remain.fdiv p.annotationCell * 2
    if space = 0 then (⟨st.lines, p.validHeight⟩, annot)
    else if space < (annot.length : Int) then
      (⟨appendRunToLastT st.lines ⟨TextType.anno, i, pyTake space annot⟩,
        p.validHeight⟩, pyDrop space annot)
    else
      (⟨appendRunToLastT st.lines ⟨TextType.anno, i, annot⟩,
        st.remain - (ceilHalf annot.length : Int) * p.annotationCell -
          (if ceilHalf annot.length % 2 ≠ 0 then p.annotationCell else 0)⟩, [])
  else (st, annot)

/-- Tagged annotation chunk emission. -/
def annotationEmitT (p : Params) (ch : List Char) (i : Nat) (acc : SplitStateT)
    (part : List Char) : SplitStateT :=
  ⟨acc.lines ++ [⟨ch, [⟨TextType.anno, i, part⟩]⟩],
    if part.length < p.maxAnnotationChars - 1 then
      acc.remain - (ceilHalf part.length : Int) * p.annotationCell
    else p.validHeight⟩

/-- Tagged annotation step. -/
def annotationStepT (p : Params) (ch : List Char) (i : Nat) (st : SplitStateT)
    (annot : List Char) : SplitStateT :=
  (cut (annotationCarryT p i st annot).2 p.maxAnnotationChars).foldl
    (annotationEmitT p ch i) (annotationCarryT p i st annot).1

/-- Tagged sentence iteration. -/
def sentenceStepT (p : Params) (ch : List Char) (i : Nat) (st : SplitStateT)
    (sentence annot : List Char) : SplitStateT :=
  annotationStepT p ch i (contentStepT p ch i st sentence) annot

/-- Tagged sentence loop carrying the sentence index. -/
def splitLoopT (p : Params) (ch : List Char) :
    Nat → SplitStateT → List (List Char) → List (List Char) → SplitStateT
  | _, st, [], _ => st
  | i, st, s :: ss, [] =>
      splitLoopT p ch (i + 1) (sentenceStepT p ch i st s []) ss []
  | i, st, s :: ss, a :: annots =>
      splitLoopT p ch (i + 1) (sentenceStepT p ch i st s a) ss annots

/-- Tagged split_paragraph. -/
def splitParagraphT (p : Params) (ch : List Char)
    (sentences annots : List (List Char)) : List LineT :=
  (splitLoopT p ch 0 ⟨[], p.validHeight⟩ sentences annots).lines

theorem contentCarryT_erase (p : Params) (i : Nat) (st : SplitStateT)
    (s : List Char) :
    eraseState (contentCarryT p i st s).1 = (contentCarry p (eraseState st) s).1 ∧
    (contentCarryT p i st s).2 = (contentCarry p (eraseState st) s).2 := by
  unfold contentCarryT contentCarry
  rw [eraseState_remain]
  by_cases h1 : st.remain < p.validHeight
  · rw [if_pos h1, if_pos h1]
    by_cases h2 : st.remain.fdiv p.contentCell = 0
    · rw [if_pos h2, if_pos h2]
      exact ⟨rfl, rfl⟩
    · rw [if_neg h2, if_neg h2]
      by_cases h3 : st.remain.fdiv p.contentCell < (s.length : Int)
      · rw [if_pos h3, if_pos h3]
        refine ⟨?_, rfl⟩
        show (⟨eraseLines (appendRunToLastT st.lines _), _⟩ : SplitState) = _
        rw [eraseLines_appendRunToLastT]
        rfl
      · rw [if_neg h3, if_neg h3]
        refine ⟨?_, rfl⟩
        show (⟨eraseLines (appendRunToLastT st.lines _), _⟩ : SplitState) = _
        rw [eraseLines_appendRunToLastT]
        rfl
  · rw [if_neg h1, if_neg h1]
    exact ⟨rfl, rfl⟩

theorem contentEmitT_erase (p : Params) (ch : List Char) (i : Nat) :
    ∀ (parts : List (List Char)) (st : SplitStateT),
      eraseState (parts.foldl (contentEmitT p ch i) st) =
        parts.foldl (contentEmit p ch) (eraseState st)
  | [], st => rfl
  | part :: rest, st => by
    rw [List.foldl_cons, List.foldl_cons, contentEmitT_erase p ch i rest]
    congr 1
    show (⟨eraseLines (st.lines ++ [⟨ch, [⟨TextType.content, i, part⟩]⟩]), _⟩ :
      SplitState) = _
    unfold eraseLines contentEmit
    rw [List.map_append]
    rfl

theorem contentStepT_erase (p : Params) (ch : List Char) (i : Nat)
    (st : SplitStateT) (s : List Char) :
    eraseState (contentStepT p ch i st s) =
      contentStep p ch (eraseState st) s := by
  unfold contentStepT contentStep
  rw [contentEmitT_erase, (contentCarryT_erase p i st s).1,
    (contentCarryT_erase p i st s).2]

theorem annotationCarryT_erase (p : Params) (i : Nat) (st : SplitStateT)
    (a : List Char) :
    eraseState (annotationCarryT p i st a).1 =
      (annotationCarry p (eraseState st) a).1 ∧
    (annotationCarryT p i st a).2 = (annotationCarry p (eraseState st) a).2 := by
  unfold annotationCarryT annotationCarry
  rw [eraseState_remain]
  by_cases h1 : a ≠ [] ∧ st.remain < p.validHeight
  · rw [if_pos h1, if_pos h1]
    by_cases h2 : st.remain.fdiv p.annotationCell * 2 = 0
    · rw [if_pos h2, if_pos h2]
      exact ⟨rfl, rfl⟩
    · rw [if_neg h2, if_neg h2]
      by_cases h3 : st.remain.fdiv p.annotationCell * 2 < (a.length : Int)
      · rw [if_pos h3, if_pos h3]
        refine ⟨?_, rfl⟩
        show (⟨eraseLines (appendRunToLastT st.lines _), _⟩ : SplitState) = _
        rw [eraseLines_appendRunToLastT]
        rfl
      · rw [if_neg h3, if_neg h3]
        refine ⟨?_, rfl⟩
        show (⟨eraseLines (appendRunToLastT st.lines _), _⟩ : SplitState) = _
        rw [eraseLines_appendRunToLastT]
        rfl
  · rw [if_neg h1, if_neg h1]
    exact ⟨rfl, rfl⟩

theorem annotationEmitT_erase (p : Params) (ch : List Char) (i : Nat) :
    ∀ (parts : List (List Char)) (st : SplitStateT),
      eraseState (parts.foldl (annotationEmitT p ch i) st) =
        parts.foldl (annotationEmit p ch) (eraseState st)
  | [], st => rfl
  | part :: rest, st => by
    rw [List.foldl_cons, List.foldl_cons, annotationEmitT_erase p ch i rest]
    congr 1
    show (⟨eraseLines (st.lines ++ [⟨ch, [⟨TextType.anno, i, part⟩]⟩]), _⟩ :
      SplitState) = _
    unfold eraseLines annotationEmit
    rw [List.map_append]
    rfl

theorem annotationStepT_erase (p : Params) (ch : List Char) (i : Nat)
    (st : SplitStateT) (a : List Char) :
    eraseState (annotationStepT p ch i st a) =
      annotationStep p ch (eraseState st) a := by
  unfold annotationStepT annotationStep
  rw [annotationEmitT_erase, (annotationCarryT_erase p i st a).1,
    (annotationCarryT_erase p i st a).2]

theorem sentenceStepT_erase (p : Params) (ch : List Char) (i : Nat)
    (st : SplitStateT) (s a : List Char) :
    eraseState (sentenceStepT p ch i st s a) =
      sentenceStep p ch (eraseState st) s a := by
  unfold sentenceStepT sentenceStep
  rw [annotationStepT_erase, contentStepT_erase]

theorem splitLoopT_erase (p : Params) (ch : List Char) :
    ∀ (ss ans : List (List Char)) (i : Nat) (st : SplitStateT),
      eraseState (splitLoopT p ch i st ss ans) =
        splitLoop p ch (eraseState st) ss ans := by
  intro ss
  induction ss with
  | nil =>
    intro ans i st
    cases ans <;> rfl
  | cons s ss ih =>
    intro ans i st
    cases ans with
    | nil =>
      show eraseState (splitLoopT p ch (i + 1) (sentenceStepT p ch i st s []) ss []) = _
      rw [ih [] (i + 1), sentenceStepT_erase, splitLoop]
    | cons a ans =>
      show eraseState (splitLoopT p ch (i + 1) (sentenceStepT p ch i st s a) ss ans) = _
      rw [ih ans (i + 1), sentenceStepT_erase, splitLoop]

/-- The instrumented splitting procedure is the source procedure with tags
added: erasing the tags of splitParagraphT gives splitParagraph. -/
theorem splitParagraphT_erase (p : Params) (ch : List Char)
    (sentences annots : List (List Char)) :
    eraseLines (splitParagraphT p ch sentences annots) =
      splitParagraph p ch sentences annots := by
  unfold splitParagraphT splitParagraph splitParagraphState
  rw [← eraseState_lines, splitLoopT_erase]
  rfl

/-- The ordering key of a tagged run: content of sentence i sorts as 2i,
its annotation as 2i + 1. -/
def keyT (r : RunT) : Nat :=
  2 * r.origin + (if r.type = TextType.anno then 1 else 0)

/-- All runs of a tagged line list, in line order and run order. -/
def flatRunsT (lines : List LineT) : List RunT :=
  (lines.map fun ln => ln.line).flatten

/-- Sorted-and-bounded invariant for the flattened run sequence. -/
def SB (lines : List LineT) (b : Nat) : Prop :=
  List.Pairwise (fun r1 r2 => keyT r1 ≤ keyT r2) (flatRunsT lines) ∧
  ∀ r ∈ flatRunsT lines, keyT r ≤ b

theorem SB_mono (lines : List LineT) (b b' : Nat) (h : SB lines b) (hb : b ≤ b') :
    SB lines b' :=
  ⟨h.1, fun r hr => le_trans (h.2 r hr) hb⟩

theorem flatRunsT_append_line (lines : List LineT) (ch : List Char) (r : RunT) :
    flatRunsT (lines ++ [⟨ch, [r]⟩]) = flatRunsT lines ++ [r] := by
  unfold flatRunsT
  rw [List.map_append, List.flatten_append]
  rfl

theorem flatRunsT_appendRunToLastT (r : RunT) :
    ∀ lines : List LineT, lines ≠ [] →
      flatRunsT (appendRunToLastT lines r) = flatRunsT lines ++ [r]
  | [], h => absurd rfl h
  | [ln], _ => by simp [appendRunToLastT, flatRunsT]
  | ln :: ln2 :: rest, _ => by
    have ih := flatRunsT_appendRunToLastT r (ln2 :: rest) (by simp)
    show flatRunsT (ln :: appendRunToLastT (ln2 :: rest) r) = _
    unfold flatRunsT at ih ⊢
    simp only [List.map_cons, List.flatten_cons] at ih ⊢
    rw [ih]
    simp [List.append_assoc]

theorem SB_append_one (lines : List LineT) (b : Nat) (r : RunT) (h : SB lines b)
    (hr : b ≤ keyT r) :
    List.Pairwise (fun r1 r2 => keyT r1 ≤ keyT r2) (flatRunsT lines ++ [r]) ∧
    ∀ x ∈ flatRunsT lines ++ [r], keyT x ≤ keyT r := by
  constructor
  · rw [List.pairwise_append]
    refine ⟨h.1, List.pairwise_singleton _ _, ?_⟩
    intro a ha c hc
    rw [List.mem_singleton] at hc
    subst hc
    exact le_trans (h.2 a ha) hr
  · intro x hx
    rcases List.mem_append.mp hx with hx | hx
    · exact le_trans (h.2 x hx) hr
    · rw [List.mem_singleton] at hx
      subst hx
      exact le_rfl

theorem SB_appendRunToLastT (lines : List LineT) (b : Nat) (r : RunT)
    (h : SB lines b) (hr : b ≤ keyT r) :
    SB (appendRunToLastT lines r) (keyT r) := by
  by_cases hne : lines = []
  · subst hne
    exact ⟨List.Pairwise.nil, by simp [flatRunsT, appendRunToLastT]⟩
  · rw [SB, flatRunsT_appendRunToLastT r lines hne]
    exact SB_append_one lines b r h hr

theorem SB_append_line (lines : List LineT) (b : Nat) (ch : List Char) (r : RunT)
    (h : SB lines b) (hr : b ≤ keyT r) :
    SB (lines ++ [⟨ch, [r]⟩]) (keyT r) := by
  rw [SB, flatRunsT_append_line]
  exact SB_append_one lines b r h hr

theorem contentCarryT_SB (p : Params) (i : Nat) (st : SplitStateT) (s : List Char)
    (h : SB st.lines (2 * i)) : SB (contentCarryT p i st s).1.lines (2 * i) := by
  unfold contentCarryT
  by_cases h1 : st.remain < p.validHeight
  · rw [if_pos h1]
    by_cases h2 : st.remain.fdiv p.contentCell = 0
    · rw [if_pos h2]
      exact h
    · rw [if_neg h2]
      have hkey : keyT ⟨TextType.content, i, pyTake (st.remain.fdiv p.contentCell) s⟩ =
          2 * i := by simp [keyT]
      by_cases h3 : st.remain.fdiv p.contentCell < (s.length : Int)
      · rw [if_pos h3]
        have := SB_appendRunToLastT st.lines (2 * i)
          ⟨TextType.content, i, pyTake (st.remain.fdiv p.contentCell) s⟩ h
          (by rw [hkey])
        rw [hkey] at this
        exact this
      · rw [if_neg h3]
        have hkey2 : keyT ⟨TextType.content, i, s⟩ = 2 * i := by simp [keyT]
        have := SB_appendRunToLastT st.lines (2 * i) ⟨TextType.content, i, s⟩ h
          (by rw [hkey2])
        rw [hkey2] at this
        exact this
  · rw [if_neg h1]
    exact h

theorem contentEmitT_SB (p : Params) (ch : List Char) (i : Nat) :
    ∀ (parts : List (List Char)) (st : SplitStateT), SB st.lines (2 * i) →
      SB ((parts.foldl (contentEmitT p ch i) st)).lines (2 * i)
  | [], _, h => h
  | part :: rest, st, h => by
    rw [List.foldl_cons]
    refine contentEmitT_SB p ch i rest _ ?_
    have hkey : keyT ⟨TextType.content, i, part⟩ = 2 * i := by simp [keyT]
    have := SB_append_line st.lines (2 * i) ch ⟨TextType.content, i, part⟩ h
      (by rw [hkey])
    rw [hkey] at this
    exact this

theorem contentStepT_SB (p : Params) (ch : List Char) (i : Nat)
    (st : SplitStateT) (s : List Char) (h : SB st.lines (2 * i)) :
    SB (contentStepT p ch i st s).lines (2 * i) := by
  unfold contentStepT
  exact contentEmitT_SB p ch i _ _ (contentCarryT_SB p i st s h)

theorem annotationCarryT_SB (p : Params) (i : Nat) (st : SplitStateT)
    (a : List Char) (h : SB st.lines (2 * i + 1)) :
    SB (annotationCarryT p i st a).1.lines (2 * i + 1) := by
  unfold annotationCarryT
  by_cases h1 : a ≠ [] ∧ st.remain < p.validHeight
  · rw [if_pos h1]
    by_cases h2 : st.remain.fdiv p.annotationCell * 2 = 0
    · rw [if_pos h2]
      exact h
    · rw [if_neg h2]
      have hkey : ∀ v : List Char, keyT ⟨TextType.anno, i, v⟩ = 2 * i + 1 := by
        intro v
        simp [keyT]
      by_cases h3 : st.remain.fdiv p.annotationCell * 2 < (a.length : Int)
      · rw [if_pos h3]
        have := SB_appendRunToLastT st.lines (2 * i + 1)
          ⟨TextType.anno, i, pyTake (st.remain.fdiv p.annotationCell * 2) a⟩ h
          (by rw [hkey])
        rw [hkey] at this
        exact this
      · rw [if_neg h3]
        have := SB_appendRunToLastT st.lines (2 * i + 1) ⟨TextType.anno, i, a⟩ h
          (by rw [hkey])
        rw [hkey] at this
        exact this
  · rw [if_neg h1]
    exact h

theorem annotationEmitT_SB (p : Params) (ch : List Char) (i : Nat) :
    ∀ (parts : List (List Char)) (st : SplitStateT), SB st.lines (2 * i + 1) →
      SB ((parts.foldl (annotationEmitT p ch i) st)).lines (2 * i + 1)
  | [], _, h => h
  | part :: rest, st, h => by
    rw [List.foldl_cons]
    refine annotationEmitT_SB p ch i rest _ ?_
    have hkey : keyT ⟨TextType.anno, i, part⟩ = 2 * i + 1 := by simp [keyT]
    have := SB_append_line st.lines (2 * i + 1) ch ⟨TextType.anno, i, part⟩ h
      (by rw [hkey])
    rw [hkey] at this
    exact this

theorem annotationStepT_SB (p : Params) (ch : List Char) (i : Nat)
    (st : SplitStateT) (a : List Char) (h : SB st.lines (2 * i + 1)) :
    SB (annotationStepT p ch i st a).lines (2 * i + 1) := by
  unfold annotationStepT
  exact annotationEmitT_SB p ch i _ _ (annotationCarryT_SB p i st a h)

theorem sentenceStepT_SB (p : Params) (ch : List Char) (i : Nat)
    (st : SplitStateT) (s a : List Char) (h : SB st.lines (2 * i)) :
    SB (sentenceStepT p ch i st s a).lines (2 * i + 1) := by
  unfold sentenceStepT
  exact annotationStepT_SB p ch i _ a
    (SB_mono _ _ _ (contentStepT_SB p ch i st s h) (Nat.le_succ _))

theorem splitLoopT_SB (p : Params) (ch : List Char) :
    ∀ (ss ans : List (List Char)) (i : Nat) (st : SplitStateT),
      SB st.lines (2 * i) →
      List.Pairwise (fun r1 r2 => keyT r1 ≤ keyT r2)
        (flatRunsT (splitLoopT p ch i st ss ans).lines) := by
  intro ss
  induction ss with
  | nil =>
    intro ans i st h
    cases ans <;> exact h.1
  | cons s ss ih =>
    intro ans i st h
    have hstep := sentenceStepT_SB p ch i st s
    cases ans with
    | nil =>
      show List.Pairwise _ (flatRunsT (splitLoopT p ch (i + 1)
        (sentenceStepT p ch i st s []) ss []).lines)
      exact ih [] (i + 1) _ (SB_mono _ _ _ (hstep [] h) (by omega))
    | cons a ans =>
      show List.Pairwise _ (flatRunsT (splitLoopT p ch (i + 1)
        (sentenceStepT p ch i st s a) ss ans).lines)
      exact ih ans (i + 1) _ (SB_mono _ _ _ (hstep a h) (by omega))

/-- Claim C7: in the provenance instrumented splitting (which erases back to
split_paragraph exactly, second conjunct), the origin keys of the flattened
run sequence are nondecreasing in line order and run order; since the runs
cut from annotation i carry key 2i + 1 and the runs cut from sentence i carry
key 2i, no run of annotation i can appear earlier than any run of sentence i:
an annotation's first run never precedes its triggering sentence's last run. -/
theorem annotation_runs_follow_their_sentence (p : Params) (ch : List Char)
    (sentences annots : List (List Char)) :
    List.Pairwise (fun r1 r2 => keyT r1 ≤ keyT r2)
      (flatRunsT (splitParagraphT p ch sentences annots)) ∧
    eraseLines (splitParagraphT p ch sentences annots) =
      splitParagraph p ch sentences annots := by
  constructor
  · exact splitLoopT_SB p ch sentences annots 0 ⟨[], p.validHeight⟩
      ⟨List.Pairwise.nil, by simp [flatRunsT]⟩
  · exact splitParagraphT_erase p ch sentences annots

/-- Witness for split_paragraph_preserves_content: a two sentence paragraph
with one annotation, content cell 1, valid height 4, chunk size 4. -/
theorem split_paragraph_preserves_content_witness :
    0 < (⟨1, 0, 1, 0, 1, 4, 0, 0, 4, 4, 8, 1, 0, 0, 0, 0, 0, 0, 0, 0, 0⟩ :
        Params).maxContentChars ∧
    contentConcat (splitParagraph
        ⟨1, 0, 1, 0, 1, 4, 0, 0, 4, 4, 8, 1, 0, 0, 0, 0, 0, 0, 0, 0, 0⟩ []
        [['a', 'b'], ['c', 'd', 'e', 'f', 'g', 'h']] [['x', 'y', 'z']]) =
      [['a', 'b'], ['c', 'd', 'e', 'f', 'g', 'h']].flatten :=
  ⟨by decide, split_paragraph_preserves_content _ [] _ _ (by decide)⟩

/-!
## Chapter splitting (split_text, src lines 282-338) and pagination
(gen_images, src lines 606-637)
-/

/-- One paragraph of the parsed document: the dicts with keys texts and
annotations produced by load_text; a missing annotation is the empty list. -/
structure Paragraph where
  texts : List (List Char)
  annots : List (List Char)
deriving DecidableEq, Repr

/-- One chapter of the parsed document: the dicts with keys chapter,
annotation and content produced by load_text; annotation None is the
empty list. -/
structure ChapterRec where
  chapterName : List Char
  annot : List Char
  content : List Paragraph
deriving DecidableEq, Repr

/-- calculate_remain_char_space (src lines 92-104). -/
def calculateRemainCharSpace (remainHeight charHeight charSpace : Int)
    (isAnno : Bool) : Int :=
  if isAnno then remainHeight.fdiv (charHeight + charSpace) * 2
  else remainHeight.fdiv (charHeight + charSpace)

/-- Vertical pixels one run occupies, per run type (the match inside
calculate_remain_height, src lines 121-130). -/
def usedHeightOfRun (p : Params) (r : Run) : Int :=
  match r.type with
  | TextType.chapter => p.chapterCharHeight * r.value.length
  | TextType.content => (p.contentCharHeight + p.contentCharSpace) * r.value.length
  | TextType.anno =>
      (p.annotationCharHeight + p.annotationCharSpace) * (ceilHalf r.value.length : Int)

/-- calculate_remain_height (src lines 107-131): the valid height minus the
height already used by the runs of a line. -/
def calculateRemainHeight (p : Params) (line : List Run) (validHeight : Int) : Int :=
  validHeight - line.foldl (fun acc r => acc + usedHeightOfRun p r) 0

/-- The chapter title lines (src lines 306-310): the chapter name is cut
into chunks of max_chapter_chars_per_line, each a new line. -/
def chapterTitle (p : Params) (st : List LineRec) (c : ChapterRec) : List LineRec :=
  st ++ (cut c.chapterName p.maxChapterChars).map
    fun sec => (⟨c.chapterName, [⟨TextType.chapter, sec⟩]⟩ : LineRec)

/-- The chapter annotation handling (src lines 311-329): a truthy chapter
annotation is packed into the leftover space of the last title line, the
remainder cut into whole annotation lines.  The source reads text_lines[-1]
and would raise IndexError were the line list empty (first chapter with an
empty name); the model reads the last line with an empty default there. -/
def chapterAnnot (p : Params) (st : List LineRec) (c : ChapterRec) : List LineRec :=
  if c.annot ≠ [] then
    let remainHeight := calculateRemainHeight p (st.getLastD ⟨[], []⟩).line p.validHeight
    let space := calculateRemainCharSpace remainHeight p.annotationCharHeight
      p.annotationCharSpace true
    if (c.annot.length : Int) ≤ space then
      appendRunToLast st ⟨TextType.anno, c.annot⟩
    else
      appendRunToLast st ⟨TextType.anno, pyTake space c.annot⟩ ++
        (cut (pyDrop space c.annot) p.maxAnnotationChars).map
          fun sec => (⟨c.chapterName, [⟨TextType.anno, sec⟩]⟩ : LineRec)
  else st

/-- The paragraph lines of a chapter (src lines 330-333). -/
def chapterParagraphs (p : Params) (st : List LineRec) (c : ChapterRec) :
    List LineRec :=
  c.content.foldl
    (fun acc para => acc ++ splitParagraph p c.chapterName para.texts para.annots) st

/-- The chapter tail padding (src lines 335-336): empty lines until the
cumulative line count is a multiple of line_count. -/
def padChapter (p : Params) (chName : List Char) (st : List LineRec) :
    List LineRec :=
  if st.length % p.lineCount ≠ 0 then
    st ++ List.replicate (p.lineCount - st.length % p.lineCount)
      (⟨chName, []⟩ : LineRec)
  else st

/-- One chapter of split_text: title, chapter annotation, paragraphs,
padding, all appended to the accumulated line list. -/
def processChapter (p : Params) (st : List LineRec) (c : ChapterRec) :
    List LineRec :=
  padChapter p c.chapterName
    (chapterParagraphs p (chapterAnnot p (chapterTitle p st c) c) c)

/-- split_text (src lines 282-338): the flat line list of the whole book. -/
def splitText (p : Params) (chapters : List ChapterRec) : List LineRec :=
  chapters.foldl (processChapter p) []

/-- The pagination of gen_images (src lines 624-631): the flat line list is
sliced into ceil(len / (2 * line_count)) consecutive pages of
2 * line_count lines each (the last page taking whatever remains).  For
line_count = 0 the source raises ZeroDivisionError; the model returns no
pages there and the pagination theorems assume a positive line_count. -/
def genPages (textLines : List LineRec) (lineCount : Nat) : List (List LineRec) :=
  (List.range ((textLines.length + (lineCount * 2 - 1)) / (lineCount * 2))).map
    fun i => (textLines.drop (i * (lineCount * 2))).take (lineCount * 2)

theorem padChapter_length_dvd (p : Params) (chName : List Char)
    (st : List LineRec) (hL : 0 < p.lineCount) :
    p.lineCount ∣ (padChapter p chName st).length := by
  unfold padChapter
  by_cases h : st.length % p.lineCount ≠ 0
  · rw [if_pos h]
    rw [List.length_append, List.length_replicate]
    have hmod : st.length % p.lineCount < p.lineCount := Nat.mod_lt _ hL
    have hid : p.lineCount * (st.length / p.lineCount) + st.length % p.lineCount =
        st.length := Nat.div_add_mod _ _
    refine ⟨st.length / p.lineCount + 1, ?_⟩
    have hc : p.lineCount * (st.length / p.lineCount + 1) =
        p.lineCount * (st.length / p.lineCount) + p.lineCount := by ring
    omega
  · rw [if_neg h]
    push_neg at h
    exact Nat.dvd_of_mod_eq_zero h

theorem processChapter_length_dvd (p : Params) (st : List LineRec)
    (c : ChapterRec) (hL : 0 < p.lineCount) :
    p.lineCount ∣ (processChapter p st c).length :=
  padChapter_length_dvd p _ _ hL

theorem foldl_processChapter_length_dvd (p : Params) (hL : 0 < p.lineCount) :
    ∀ (chapters : List ChapterRec) (st : List LineRec), p.lineCount ∣ st.length →
      p.lineCount ∣ (chapters.foldl (processChapter p) st).length
  | [], _, h => h
  | c :: rest, st, _ =>
    foldl_processChapter_length_dvd p hL rest (processChapter p st c)
      (processChapter_length_dvd p st c hL)

theorem splitText_length_dvd (p : Params) (chapters : List ChapterRec)
    (hL : 0 < p.lineCount) : p.lineCount ∣ (splitText p chapters).length :=
  foldl_processChapter_length_dvd p hL chapters [] (dvd_zero _)

/-- Claim C6: for every book and every positive line_count, the number of
lines each chapter contributes to the flat line list of split_text (title,
chapter annotation, paragraph and padding lines together) is a multiple of
line_count: the difference between the lengths after k + 1 chapters and
after k chapters is divisible by line_count. -/
theorem chapter_lines_multiple_of_line_count (p : Params)
    (chapters : List ChapterRec) (k : Nat) (hL : 0 < p.lineCount) :
    p.lineCount ∣ ((splitText p (chapters.take (k + 1))).length -
      (splitText p (chapters.take k)).length) :=
  Nat.dvd_sub' (splitText_length_dvd p _ hL) (splitText_length_dvd p _ hL)

/-- Witness for chapter_lines_multiple_of_line_count: a one chapter book
with line_count 3 (the chapter contributes one title line plus two padding
lines). -/
theorem chapter_lines_multiple_of_line_count_witness :
    0 < (⟨1, 0, 1, 0, 1, 4, 0, 0, 4, 4, 8, 3, 0, 0, 0, 0, 0, 0, 0, 0, 0⟩ :
        Params).lineCount ∧
    (⟨1, 0, 1, 0, 1, 4, 0, 0, 4, 4, 8, 3, 0, 0, 0, 0, 0, 0, 0, 0, 0⟩ :
        Params).lineCount ∣
      ((splitText ⟨1, 0, 1, 0, 1, 4, 0, 0, 4, 4, 8, 3, 0, 0, 0, 0, 0, 0, 0, 0, 0⟩
          ([⟨['c'], [], []⟩].take 1)).length -
        (splitText ⟨1, 0, 1, 0, 1, 4, 0, 0, 4, 4, 8, 3, 0, 0, 0, 0, 0, 0, 0, 0, 0⟩
          ([⟨['c'], [], []⟩].take 0)).length) :=
  ⟨by decide, chapter_lines_multiple_of_line_count _ [⟨['c'], [], []⟩] 0 (by decide)⟩

theorem genPages_eq_cut_aux (B : Nat) (hB : 0 < B) :
    ∀ n, ∀ lines : List LineRec, lines.length ≤ n →
      (List.range ((lines.length + (B - 1)) / B)).map
          (fun i => (lines.drop (i * B)).take B) =
        cut lines B := by
  intro n
  induction n with
  | zero =>
    intro lines h
    have : lines = [] := List.eq_nil_of_length_eq_zero (Nat.le_zero.mp h)
    subst this
    have : (0 + (B - 1)) / B = 0 := by
      apply Nat.div_eq_of_lt
      omega
    rw [List.length_nil, this, List.range_zero, List.map_nil, cut_nil]
  | succ n ih =>
    intro lines h
    by_cases ht : lines = []
    · subst ht
      have : (0 + (B - 1)) / B = 0 := by
        apply Nat.div_eq_of_lt
        omega
      rw [List.length_nil, this, List.range_zero, List.map_nil, cut_nil]
    · have hpos : 0 < lines.length := List.length_pos.mpr ht
      have hm : (lines.length + (B - 1)) / B =
          ((lines.drop B).length + (B - 1)) / B + 1 := by
        rw [List.length_drop]
        rcases Nat.le_total lines.length B with hle | hle
        · have h1 : (lines.length + (B - 1)) / B = 1 := by
            apply Nat.div_eq_of_lt_le
            · omega
            · omega
          have h2 : (lines.length - B + (B - 1)) / B = 0 := by
            apply Nat.div_eq_of_lt
            omega
          rw [h1, h2]
        · have harg : lines.length + (B - 1) = (lines.length - B + (B - 1)) + B := by
            omega
          rw [harg, Nat.add_div_right _ hB]
      rw [hm, cut_pos lines B ht (Nat.pos_iff_ne_zero.mp hB),
        List.range_succ_eq_map, List.map_cons]
      congr 1
      · simp
      · rw [List.map_map, ← ih (lines.drop B) (by rw [List.length_drop]; omega)]
        apply List.map_congr_left
        intro i _
        simp only [Function.comp_apply]
        rw [List.drop_drop]
        congr 2
        rw [Nat.succ_mul, Nat.mul_comm i B]
        omega

theorem genPages_eq_cut (lines : List LineRec) (L : Nat) (hL : 0 < L) :
    genPages lines L = cut lines (L * 2) := by
  unfold genPages
  exact genPages_eq_cut_aux (L * 2) (by omega) lines.length lines le_rfl

/-- Claim C3 counterexample: with line_count = 1 and a book consisting of a
single chapter whose title fits one line and which has no paragraphs,
split_text produces one line (already a multiple of line_count, so no
padding), and the pagination of gen_images produces a single final page with
1 line instead of the claimed 2 * line_count = 2. -/
theorem page_shape_counterexample :
    ¬ ∀ pg ∈ genPages
        (splitText ⟨1, 0, 1, 0, 1, 4, 0, 0, 4, 4, 8, 1, 0, 0, 0, 0, 0, 0, 0, 0, 0⟩
          [⟨['c'], [], []⟩])
        (⟨1, 0, 1, 0, 1, 4, 0, 0, 4, 4, 8, 1, 0, 0, 0, 0, 0, 0, 0, 0, 0⟩ :
          Params).lineCount,
      pg.length =
        2 * (⟨1, 0, 1, 0, 1, 4, 0, 0, 4, 4, 8, 1, 0, 0, 0, 0, 0, 0, 0, 0, 0⟩ :
          Params).lineCount := by
  decide

/-- Claim C3 amended: for every book and positive line_count, every page
except possibly the final one contains exactly 2 * line_count lines, and the
final page contains either line_count or 2 * line_count lines (each chapter
is padded to a multiple of line_count, not of 2 * line_count, so a book whose
padded line total is an odd multiple of line_count ends in a half page; see
the counterexample). -/
theorem page_shape_amended (p : Params) (chapters : List ChapterRec)
    (hL : 0 < p.lineCount) :
    (∀ i, i + 1 < (genPages (splitText p chapters) p.lineCount).length →
      ((genPages (splitText p chapters) p.lineCount).getD i []).length =
        2 * p.lineCount) ∧
    (∀ pg ∈ genPages (splitText p chapters) p.lineCount,
      pg.length = p.lineCount ∨ pg.length = 2 * p.lineCount) := by
  rw [genPages_eq_cut _ _ hL]
  have hB : 0 < p.lineCount * 2 := by omega
  constructor
  · intro i hi
    rw [cut_full_chunks (p.lineCount * 2) hB _ i hi]
    ring
  · intro pg hpg
    have h1 := cut_chunk_length (p.lineCount * 2) hB (splitText p chapters) pg hpg
    have h2 := cut_chunks_dvd p.lineCount (p.lineCount * 2) (Dvd.intro 2 (by ring))
      (splitText p chapters).length (splitText p chapters) le_rfl
      (splitText_length_dvd p chapters hL) pg hpg
    obtain ⟨q, hq⟩ := h2
    have hq0 : 0 < q := by
      rcases Nat.eq_zero_or_pos q with h | h
      · rw [h, Nat.mul_zero] at hq
        exact absurd (List.length_eq_zero.mp hq) h1.1
      · exact h
    have hq2 : q ≤ 2 := by
      by_contra hgt
      push_neg at hgt
      have : p.lineCount * 3 ≤ p.lineCount * q := Nat.mul_le_mul_left _ hgt
      have hle : pg.length ≤ p.lineCount * 2 := h1.2
      omega
    interval_cases q
    · exact Or.inl (by omega)
    · exact Or.inr (by rw [hq]; ring)

/-- Witness for page_shape_amended: a one chapter book with line_count 1
whose single page has exactly line_count = 1 line. -/
theorem page_shape_amended_witness :
    0 < (⟨1, 0, 1, 0, 1, 4, 0, 0, 4, 4, 8, 1, 0, 0, 0, 0, 0, 0, 0, 0, 0⟩ :
        Params).lineCount ∧
    ((∀ i, i + 1 < (genPages
        (splitText ⟨1, 0, 1, 0, 1, 4, 0, 0, 4, 4, 8, 1, 0, 0, 0, 0, 0, 0, 0, 0, 0⟩
          [⟨['c'], [], []⟩]) 1).length →
      ((genPages
        (splitText ⟨1, 0, 1, 0, 1, 4, 0, 0, 4, 4, 8, 1, 0, 0, 0, 0, 0, 0, 0, 0, 0⟩
          [⟨['c'], [], []⟩]) 1).getD i []).length = 2 * 1) ∧
    (∀ pg ∈ genPages
        (splitText ⟨1, 0, 1, 0, 1, 4, 0, 0, 4, 4, 8, 1, 0, 0, 0, 0, 0, 0, 0, 0, 0⟩
          [⟨['c'], [], []⟩]) 1,
      pg.length = 1 ∨ pg.length = 2 * 1)) := by
  refine ⟨by decide, ?_⟩
  have := page_shape_amended
    ⟨1, 0, 1, 0, 1, 4, 0, 0, 4, 4, 8, 1, 0, 0, 0, 0, 0, 0, 0, 0, 0⟩
    [⟨['c'], [], []⟩] (by decide)
  exact this

/-!
## Character drawing (gen_image_with_fixed_size, src lines 522-596) and
glyph lookup (load_font_for_char, src lines 61-77)

A PIL font is abstracted to its character support query (does
font.getmask(char) have a bounding box); the canvas is abstracted by
recording, for every character that is drawn, the draw command with its
exact coordinates, modelled as rationals (the source coordinates are
Python floats built by the same additions and subtractions, so equality
of the two command traces carries over).  Colors and font sizes only
select which font objects are probed; they are absorbed into the
support oracle.
-/

/-- load_font_for_char (src lines 61-77): the first font of the fallback
chain that contains the character, none when no font does. -/
def loadFontForChar (fonts : List (Char → Bool)) (c : Char) : Option (Char → Bool) :=
  fonts.find? fun f => f c

/-- One recorded draw.text call: the run type selecting the font chain, the
character and the pen position. -/
structure DrawCmd where
  ttype : TextType
  char : Char
  x : ℚ
  y : ℚ
deriving DecidableEq, Repr

/-- The mutable locals of the per-line drawing loop: pen position, the saved
annotation sub-column positions, and the character cell selected by the last
run type match. -/
structure DrawState where
  x : ℚ
  y : ℚ
  yAnnoStart : ℚ
  yAnnoEnd : ℚ
  charHeight : Int
  charSpace : Int
deriving DecidableEq, Repr

/-- The pen advance of one character (src lines 587-592): for character
ceil(n/2) - 1 of an annotation the pen switches to the second sub-column
(restoring x, saving the end y, returning to the saved start y), otherwise
it moves down one character cell. -/
def charAdvance (tt : TextType) (n : Nat) (xOffset : ℚ) (i : Nat)
    (st : DrawState) : DrawState :=
  if tt = TextType.anno ∧ i = ceilHalf n - 1 then
    { st with x := st.x - xOffset,
              yAnnoEnd := st.y + ((st.charHeight + st.charSpace : Int) : ℚ),
              y := st.yAnnoStart }
  else { st with y := st.y + ((st.charHeight + st.charSpace : Int) : ℚ) }

/-- The inner character loop (src lines 582-592): a character whose font
lookup fails is not drawn, but the pen advances identically. -/
def drawCharLoop (sup : TextType → Char → Bool) (tt : TextType) (n : Nat)
    (xOffset : ℚ) : List Char → Nat → DrawState → DrawState × List DrawCmd
  | [], _, st => (st, [])
  | c :: rest, i, st =>
    ((drawCharLoop sup tt n xOffset rest (i + 1) (charAdvance tt n xOffset i st)).1,
      (if sup tt c then [⟨tt, c, st.x, st.y⟩] else []) ++
        (drawCharLoop sup tt n xOffset rest (i + 1) (charAdvance tt n xOffset i st)).2)

theorem drawCharLoop_cons_fst (sup : TextType → Char → Bool) (tt : TextType)
    (n : Nat) (xOffset : ℚ) (c : Char) (rest : List Char) (i : Nat)
    (st : DrawState) :
    (drawCharLoop sup tt n xOffset (c :: rest) i st).1 =
      (drawCharLoop sup tt n xOffset rest (i + 1) (charAdvance tt n xOffset i st)).1 :=
  rfl

theorem drawCharLoop_cons_snd (sup : TextType → Char → Bool) (tt : TextType)
    (n : Nat) (xOffset : ℚ) (c : Char) (rest : List Char) (i : Nat)
    (st : DrawState) :
    (drawCharLoop sup tt n xOffset (c :: rest) i st).2 =
      (if sup tt c then [⟨tt, c, st.x, st.y⟩] else []) ++
        (drawCharLoop sup tt n xOffset rest (i + 1) (charAdvance tt n xOffset i st)).2 :=
  rfl

/-- The annotation x pen shift (src lines 576-577). -/
def annoXOffset (p : Params) : ℚ :=
  ((p.annotationCharWidth + p.annotationLineSpace - p.lineSpace : Int) : ℚ)

/-- The post-item fixup for an annotation run (src lines 593-596): the pen
drops below the annotation block, one extra pair row when the pair count is
odd. -/
def annoFinish (n : Nat) (res : DrawState × List DrawCmd) :
    DrawState × List DrawCmd :=
  ({ res.1 with y := res.1.yAnnoEnd +
      (if ceilHalf n % 2 ≠ 0 then ((res.1.charHeight + res.1.charSpace : Int) : ℚ)
        else 0) }, res.2)

/-- One run of the line (src lines 551-596): the run type selects the font
chain and character cell; a chapter run restarts at the top margin without
the inner margin; an annotation run shifts the pen into the first
sub-column. -/
def drawItem (sup : TextType → Char → Bool) (p : Params) (st : DrawState)
    (r : Run) : DrawState × List DrawCmd :=
  match r.type with
  | TextType.chapter =>
    drawCharLoop sup TextType.chapter r.value.length 0 r.value 0
      { st with charHeight := p.chapterCharHeight,
                y := ((p.marginTop + p.border + 3 : Int) : ℚ) }
  | TextType.content =>
    drawCharLoop sup TextType.content r.value.length 0 r.value 0
      { st with charHeight := p.contentCharHeight, charSpace := p.contentCharSpace }
  | TextType.anno =>
    annoFinish r.value.length
      (drawCharLoop sup TextType.anno r.value.length (annoXOffset p) r.value 0
        { st with charHeight := p.annotationCharHeight,
                  charSpace := p.annotationCharSpace,
                  x := st.x + annoXOffset p, yAnnoStart := st.y })

/-- The run loop over one line. -/
def drawRunsLoop (sup : TextType → Char → Bool) (p : Params) :
    List Run → DrawState → DrawState × List DrawCmd
  | [], st => (st, [])
  | r :: rest, st =>
    ((drawRunsLoop sup p rest (drawItem sup p st r).1).1,
      (drawItem sup p st r).2 ++ (drawRunsLoop sup p rest (drawItem sup p st r).1).2)

/-- The starting x of column line_index (src lines 539-542), with the gutter
column skipped; lineWidth is the column width init_image computes. -/
def lineStartX (p : Params) (lineWidth : ℚ) (lineIndex : Nat) : ℚ :=
  ((p.width - p.marginRight : Int) : ℚ) -
    ((((if lineIndex ≥ p.lineCount then lineIndex + 1 else lineIndex) + 1 : Nat) : ℚ)) *
      lineWidth -
    ((p.border : Int) : ℚ) - 3 + ((p.lineSpace : Int) : ℚ) / 2

/-- The starting y of every column (src line 543). -/
def lineStartY (p : Params) : ℚ :=
  ((p.marginTop + p.border + 3 + p.innerMarginTop : Int) : ℚ)

/-- All draw commands of one line (src lines 537-596); the locals reset per
line, font metrics start at zero. -/
def drawLine (sup : TextType → Char → Bool) (p : Params) (lineWidth : ℚ)
    (lineIndex : Nat) (ln : LineRec) : List DrawCmd :=
  (drawRunsLoop sup p ln.line
    ⟨lineStartX p lineWidth lineIndex, lineStartY p, 0, 0, 0, 0⟩).2

/-- The enumerate loop over the lines of one page. -/
def drawPageAux (sup : TextType → Char → Bool) (p : Params) (lineWidth : ℚ) :
    Nat → List LineRec → List DrawCmd
  | _, [] => []
  | idx, ln :: rest =>
    drawLine sup p lineWidth idx ln ++ drawPageAux sup p lineWidth (idx + 1) rest

/-- The full character drawing trace of one page of
gen_image_with_fixed_size. -/
def drawPage (sup : TextType → Char → Bool) (p : Params) (lineWidth : ℚ)
    (lines : List LineRec) : List DrawCmd :=
  drawPageAux sup p lineWidth 0 lines

theorem drawCharLoop_filter (sup : TextType → Char → Bool) (tt : TextType)
    (n : Nat) (xOffset : ℚ) :
    ∀ (text : List Char) (i : Nat) (st : DrawState),
      (drawCharLoop sup tt n xOffset text i st).1 =
        (drawCharLoop (fun _ _ => true) tt n xOffset text i st).1 ∧
      (drawCharLoop sup tt n xOffset text i st).2 =
        ((drawCharLoop (fun _ _ => true) tt n xOffset text i st).2).filter
          fun c => sup c.ttype c.char
  | [], _, _ => ⟨rfl, rfl⟩
  | c :: rest, i, st => by
    have ih := drawCharLoop_filter sup tt n xOffset rest (i + 1)
      (charAdvance tt n xOffset i st)
    refine ⟨?_, ?_⟩
    · rw [drawCharLoop_cons_fst, drawCharLoop_cons_fst]
      exact ih.1
    · rw [drawCharLoop_cons_snd, drawCharLoop_cons_snd, List.filter_append, ← ih.2]
      congr 1
      rw [if_pos rfl, List.filter_cons]
      by_cases hs : sup tt c = true
      · rw [if_pos hs]
        simp [hs]
      · rw [if_neg hs]
        have hs' : sup tt c = false := Bool.not_eq_true _ |>.mp hs
        simp [hs']

theorem drawItem_filter (sup : TextType → Char → Bool) (p : Params)
    (st : DrawState) (r : Run) :
    (drawItem sup p st r).1 = (drawItem (fun _ _ => true) p st r).1 ∧
    (drawItem sup p st r).2 =
      ((drawItem (fun _ _ => true) p st r).2).filter
        fun c => sup c.ttype c.char := by
  unfold drawItem
  match hr : r.type with
  | TextType.chapter => exact drawCharLoop_filter sup _ _ _ _ _ _
  | TextType.content => exact drawCharLoop_filter sup _ _ _ _ _ _
  | TextType.anno =>
    have h := drawCharLoop_filter sup TextType.anno r.value.length (annoXOffset p)
      r.value 0
      { st with charHeight := p.annotationCharHeight,
                charSpace := p.annotationCharSpace,
                x := st.x + annoXOffset p, yAnnoStart := st.y }
    unfold annoFinish
    rw [h.1, h.2]
    exact ⟨rfl, rfl⟩

theorem drawRunsLoop_cons_fst (sup : TextType → Char → Bool) (p : Params)
    (r : Run) (rest : List Run) (st : DrawState) :
    (drawRunsLoop sup p (r :: rest) st).1 =
      (drawRunsLoop sup p rest (drawItem sup p st r).1).1 :=
  rfl

theorem drawRunsLoop_cons_snd (sup : TextType → Char → Bool) (p : Params)
    (r : Run) (rest : List Run) (st : DrawState) :
    (drawRunsLoop sup p (r :: rest) st).2 =
      (drawItem sup p st r).2 ++ (drawRunsLoop sup p rest (drawItem sup p st r).1).2 :=
  rfl

theorem drawRunsLoop_filter (sup : TextType → Char → Bool) (p : Params) :
    ∀ (runs : List Run) (st : DrawState),
      (drawRunsLoop sup p runs st).1 =
        (drawRunsLoop (fun _ _ => true) p runs st).1 ∧
      (drawRunsLoop sup p runs st).2 =
        ((drawRunsLoop (fun _ _ => true) p runs st).2).filter
          fun c => sup c.ttype c.char
  | [], st => ⟨rfl, rfl⟩
  | r :: rest, st => by
    have hitem := drawItem_filter sup p st r
    have ih := drawRunsLoop_filter sup p rest (drawItem sup p st r).1
    constructor
    · rw [drawRunsLoop_cons_fst, drawRunsLoop_cons_fst, ← hitem.1]
      exact ih.1
    · rw [drawRunsLoop_cons_snd, drawRunsLoop_cons_snd, List.filter_append,
        ← hitem.1, ← hitem.2, ← ih.2]

theorem drawPageAux_filter (sup : TextType → Char → Bool) (p : Params)
    (lineWidth : ℚ) :
    ∀ (lines : List LineRec) (idx : Nat),
      drawPageAux sup p lineWidth idx lines =
        (drawPageAux (fun _ _ => true) p lineWidth idx lines).filter
          fun c => sup c.ttype c.char
  | [], _ => rfl
  | ln :: rest, idx => by
    unfold drawPageAux
    rw [List.filter_append, drawPageAux_filter sup p lineWidth rest (idx + 1)]
    congr 1
    unfold drawLine
    exact (drawRunsLoop_filter sup p ln.line _).2

/-- Claim C8: when some characters have no supporting font anywhere in their
fallback chain (loadFontForChar returns none), page drawing still runs to
completion and its command trace is exactly the all-glyphs-available trace
with the unsupported characters' draw commands removed: no glyph is drawn
for them, and every other character (in particular every later character of
the same column) is drawn at the identical position, for every page, layout
parameter choice and column width. -/
theorem glyph_missing_skips_draw_keeps_positions
    (fonts : TextType → List (Char → Bool)) (p : Params) (lineWidth : ℚ)
    (lines : List LineRec) :
    drawPage (fun tt c => (loadFontForChar (fonts tt) c).isSome) p lineWidth lines =
      (drawPage (fun _ _ => true) p lineWidth lines).filter
        fun cmd => (loadFontForChar (fonts cmd.ttype) cmd.char).isSome :=
  drawPageAux_filter (fun tt c => (loadFontForChar (fonts tt) c).isSome) p
    lineWidth lines 0

end AncientBooks
